import Mathlib

/-!
Shallow embedding, in Lean 4, of the structure-preserving rewrite engine of
the `black` code formatter (files `src/black/strings.py`,
`src/black/comments.py` and the orchestration layer of
`src/black/__init__.py`), together with theorems settling the claims made by
the natural-language specification of the engine.

Python strings are modelled as `List Char`.  Python's regular-expression
substitutions used by the source are embedded as direct character scanners
that implement exactly the leftmost, non-overlapping semantics of `re.sub`
for the concrete patterns appearing in the source.  Scanners whose step may
consume a variable number of characters take an explicit fuel argument; every
step consumes at least one character, so fuel `length + 1` makes the scanner
total and exact, and all callers pass that fuel.
-/

set_option linter.unusedVariables false
namespace Black

/-! ### Python character and string primitives -/

/-- The backslash character. -/
def bsC : Char := Char.ofNat 92

/-- The single-quote (apostrophe) character. -/
def sqC : Char := Char.ofNat 39

/-- The double-quote character. -/
def dqC : Char := Char.ofNat 34

/-- The hash character `#`. -/
def hashC : Char := Char.ofNat 35

/-- The open-brace character. -/
def obC : Char := Char.ofNat 123

/-- The close-brace character. -/
def cbC : Char := Char.ofNat 125

/-- The no-break space U+00A0, `NON_BREAKING_SPACE` in `comments.py`. -/
def nbspC : Char := Char.ofNat 160

/-- The newline character. -/
def nlC : Char := Char.ofNat 10

/-- Python `str.isspace` for the characters that can occur in the engine's
inputs: the six ASCII whitespace characters plus the no-break space. -/
def pyIsSpace (c : Char) : Bool :=
  c == ' ' || c == Char.ofNat 9 || c == Char.ofNat 10 || c == Char.ofNat 13 ||
  c == Char.ofNat 11 || c == Char.ofNat 12 || c == nbspC

/-- Python `str.lstrip()` (no argument: strip leading whitespace). -/
def pyLstripWS (l : List Char) : List Char := l.dropWhile pyIsSpace

/-- Python `str.rstrip()` (no argument: strip trailing whitespace). -/
def pyRstripWS (l : List Char) : List Char := (l.reverse.dropWhile pyIsSpace).reverse

/-- Python `str.strip()`. -/
def pyStripWS (l : List Char) : List Char := pyRstripWS (pyLstripWS l)

/-- Python `str.lstrip(chars)`: strip the leading characters drawn from `cs`. -/
def pyLstripSet (cs : List Char) (l : List Char) : List Char :=
  l.dropWhile (fun c => cs.contains c)

/-- Python `str.find(pat)` restricted to found/not-found: the index of the
first occurrence of `pat` as a contiguous substring, if any. -/
def findSub (pat : List Char) : List Char → Option Nat
  | [] => if pat = [] then some 0 else none
  | c :: t =>
    if pat.isPrefixOf (c :: t) then some 0
    else (findSub pat t).map (· + 1)

/-- Python `pat in s` for strings: substring containment. -/
def containsSub (hay pat : List Char) : Bool := (findSub pat hay).isSome

/-- One scan of Python `str.replace(old, new)`: leftmost, non-overlapping
replacement of every occurrence.  `fuel` must be at least `s.length`;
each step consumes at least one character (callers guarantee `old ≠ []`,
matching every use in the source). -/
def pyReplaceA (old new : List Char) : Nat → List Char → List Char
  | 0, s => s
  | _, [] => []
  | fuel + 1, c :: t =>
    if old ≠ [] ∧ old.isPrefixOf (c :: t) then
      new ++ pyReplaceA old new fuel ((c :: t).drop old.length)
    else
      c :: pyReplaceA old new fuel t

/-- Python `str.replace(old, new)` (for nonempty `old`, as in every use by
the source). -/
def pyReplace (old new s : List Char) : List Char :=
  pyReplaceA old new s.length s

/-- `re.split("\r?\n", s)`: split on `\n`, consuming one directly preceding
`\r` together with it; a lone `\r` does not split. -/
def splitCRLF : List Char → List (List Char)
  | [] => [[]]
  | [c] =>
    if c = nlC then [[], []] else [[c]]
  | c :: d :: t =>
    if c = Char.ofNat 13 ∧ d = nlC then [] :: splitCRLF t
    else if c = nlC then [] :: splitCRLF (d :: t)
    else
      match splitCRLF (d :: t) with
      | [] => [[c]]
      | h :: r => (c :: h) :: r

/-- The line-break characters recognised by Python `str.splitlines`. -/
def pyIsLineBreak (c : Char) : Bool :=
  c == nlC || c == Char.ofNat 13 || c == Char.ofNat 11 || c == Char.ofNat 12 ||
  c == Char.ofNat 28 || c == Char.ofNat 29 || c == Char.ofNat 30 ||
  c == Char.ofNat 133 || c == Char.ofNat 8232 || c == Char.ofNat 8233

/-- Worker for `pySplitlines`; `acc` is the current line, reversed. -/
def pySplitlinesA : List Char → List Char → List (List Char)
  | acc, [] => if acc = [] then [] else [acc.reverse]
  | acc, [c] => if pyIsLineBreak c then [acc.reverse] else [(c :: acc).reverse]
  | acc, c :: d :: t =>
    if c = Char.ofNat 13 ∧ d = nlC then acc.reverse :: pySplitlinesA [] t
    else if pyIsLineBreak c then acc.reverse :: pySplitlinesA [] (d :: t)
    else pySplitlinesA (c :: acc) (d :: t)

/-- Python `str.splitlines()`. -/
def pySplitlines (l : List Char) : List (List Char) := pySplitlinesA [] l

/-- Python `str.expandtabs()` (tab size 8), tracking the output column. -/
def pyExpandtabsA (col : Nat) : List Char → List Char
  | [] => []
  | c :: t =>
    if c = Char.ofNat 9 then
      List.replicate (8 - col % 8) ' ' ++ pyExpandtabsA (col + (8 - col % 8)) t
    else if c = nlC ∨ c = Char.ofNat 13 then
      c :: pyExpandtabsA 0 t
    else
      c :: pyExpandtabsA (col + 1) t

/-- Python `str.expandtabs()`. -/
def pyExpandtabs (l : List Char) : List Char := pyExpandtabsA 0 l

/-- Python `"\n".join(lines)`. -/
def joinNL (lines : List (List Char)) : List Char :=
  List.intercalate [nlC] lines

/-! ### `src/black/strings.py` -/

/-- `STRING_PREFIX_CHARS`: all possible string prefix characters. -/
def STRING_PREFIX_CHARS : List Char := ['f', 'u', 'r', 'b', 'F', 'U', 'R', 'B']

/-- `lines_with_leading_tabs_expanded`: split into lines and expand only
leading tabs.  `FIRST_NON_WHITESPACE_RE` matches a line exactly when its
maximal leading whitespace run contains at least one tab and is followed by a
non-whitespace character; the match's group 1 starts at that character. -/
def lines_with_leading_tabs_expanded (s : List Char) : List (List Char) :=
  (pySplitlines s).map fun line =>
    let lead := line.takeWhile pyIsSpace
    if lead.length < line.length ∧ lead.contains (Char.ofNat 9) then
      pyExpandtabs (line.take lead.length) ++ line.drop lead.length
    else
      line

/-- The minimum-indentation loop of `fix_docstring` (`strings.py` lines
69-73): fold over all lines but the first, taking the minimum indentation
of the non-blank ones.  `sys.maxsize` as the initial minimum is modelled by
`Option.none`. -/
def fdIndent (lines : List (List Char)) : Option Nat :=
  (lines.drop 1).foldl
    (fun acc line =>
      if pyLstripWS line ≠ [] then
        match acc with
        | none => some (line.length - (pyLstripWS line).length)
        | some m => some (min m (line.length - (pyLstripWS line).length))
      else acc)
    none

/-- The re-indentation loop of `fix_docstring` (`strings.py` lines 77-83):
strip `ind` characters from each subsequent line, trim it on the right, and
re-prefix it when it is non-blank or is the final line. -/
def fdTail (pfx : List Char) (ind : Nat) (lines : List (List Char)) :
    List (List Char) :=
  (lines.drop 1).enum.map fun p =>
    if pyRstripWS (p.2.drop ind) ≠ [] ∨ p.1 = lines.length - 2 then
      pfx ++ pyRstripWS (p.2.drop ind)
    else []

/-- `fix_docstring` (PEP 257 docstring re-indentation). -/
def fix_docstring (docstring pfx : List Char) : List Char :=
  if docstring = [] then []
  else
    match fdIndent (lines_with_leading_tabs_expanded docstring) with
    | none =>
      joinNL [pyStripWS ((lines_with_leading_tabs_expanded docstring).headD [])]
    | some ind =>
      joinNL (pyStripWS ((lines_with_leading_tabs_expanded docstring).headD []) ::
        fdTail pfx ind (lines_with_leading_tabs_expanded docstring))

/-- Is `c` a quote character? -/
def isQuoteC (c : Char) : Bool := c = sqC ∨ c = dqC

/-- The index of the first quote character of `s` (`s.length` if there is
none); this is the `quote_idx` of `assert_is_leaf_string`, which takes the
first of the two `str.find` results over `-1` handling. -/
def firstQuoteIdx (s : List Char) : Nat :=
  (s.takeWhile fun c => !isQuoteC c).length

/-- The checks of `assert_is_leaf_string`: a leaf string has a first quote
character, preceded only by legal prefix characters, not in the last
position, and ends with a quote character. -/
def is_leaf_string (s : List Char) : Bool :=
  firstQuoteIdx s + 1 < s.length &&
  (match s.getLast? with | some c => isQuoteC c | none => false) &&
  (s.take (firstQuoteIdx s)).all fun c => STRING_PREFIX_CHARS.contains c

/-- The prefix part of a leaf string: the characters before the first
quote. -/
def leafPfxOf (s : List Char) : List Char := s.take (firstQuoteIdx s)

/-- Count the leading backslashes; return the count and the remainder. -/
def bsRun : List Char → Nat × List Char
  | [] => (0, [])
  | c :: t =>
    if c = bsC then
      let p := bsRun t
      (p.1 + 1, p.2)
    else (0, c :: t)

/-- Match, at the current point, the `\\((?:\\\\)*)q` tail of the pattern
`([^\\]|^)\\((?:\\\\)*)q` (an odd backslash run followed by `q`); on success
return the replacement text for that tail (`\2q`: one backslash removed) and
the rest of the input. -/
def escMatch (q s : List Char) : Option (List Char × List Char) :=
  let p := bsRun s
  if p.1 % 2 = 1 ∧ q.isPrefixOf p.2 then
    some (List.replicate (p.1 - 1) bsC ++ q, p.2.drop q.length)
  else none

/-- Match, at the current point, the `((?:\\\\)*)q` tail of the pattern
`(([^\\]|^)(\\\\)*)q` (an even backslash run followed by `q`); on success
return the replacement text for that tail (pairs kept, one backslash
inserted before `q`) and the rest of the input. -/
def addEscMatch (q s : List Char) : Option (List Char × List Char) :=
  let p := bsRun s
  if p.1 % 2 = 0 ∧ q.isPrefixOf p.2 then
    some (List.replicate p.1 bsC ++ [bsC] ++ q, p.2.drop q.length)
  else none

/-- One `re.sub` pass for `escaped_new_quote`/`escaped_orig_quote`
(`([^\\]|^)\\((?:\\\\)*)q` replaced by `\1\2q`): the scanner tries, at each
position, first the `[^\\]` alternative (consuming one non-backslash
character) and then `^` (start of string only). -/
def subEscA (q : List Char) : Nat → Bool → List Char → List Char
  | 0, _, s => s
  | _, _, [] => []
  | fuel + 1, atStart, c :: t =>
    if c ≠ bsC then
      match escMatch q t with
      | some p => c :: (p.1 ++ subEscA q fuel false p.2)
      | none => c :: subEscA q fuel false t
    else if atStart then
      match escMatch q (c :: t) with
      | some p => p.1 ++ subEscA q fuel false p.2
      | none => c :: subEscA q fuel false t
    else
      c :: subEscA q fuel false t

/-- One `re.sub` pass removing an unnecessary escape before quote `q`. -/
def subEsc (q s : List Char) : List Char := subEscA q (s.length + 1) true s

/-- One `re.sub` pass for `unescaped_new_quote`
(`(([^\\]|^)(\\\\)*)q` replaced by `\1\\q`): insert a backslash before an
unescaped occurrence of `q`.  Alternative order as in `subEscA`. -/
def subUnescA (q : List Char) : Nat → Bool → List Char → List Char
  | 0, _, s => s
  | _, _, [] => []
  | fuel + 1, atStart, c :: t =>
    if c ≠ bsC then
      match addEscMatch q t with
      | some p => c :: (p.1 ++ subUnescA q fuel false p.2)
      | none =>
        if atStart then
          match addEscMatch q (c :: t) with
          | some p => p.1 ++ subUnescA q fuel false p.2
          | none => c :: subUnescA q fuel false t
        else
          c :: subUnescA q fuel false t
    else if atStart then
      match addEscMatch q (c :: t) with
      | some p => p.1 ++ subUnescA q fuel false p.2
      | none => c :: subUnescA q fuel false t
    else
      c :: subUnescA q fuel false t

/-- One `re.sub` pass escaping every unescaped occurrence of quote `q`. -/
def subUnesc (q s : List Char) : List Char := subUnescA q (s.length + 1) true s

/-- `sub_twice`: replace twice, to act on overlapping matches. -/
def sub_twice (f : List Char → List Char) (original : List Char) : List Char :=
  f (f original)

/-- `unescaped_new_quote.search(body)`: is there an occurrence of `q`
preceded by an even backslash run whose start is preceded by a non-backslash
character or the start of the string? -/
def hasUnescA (q : List Char) : Bool → List Char → Bool
  | _, [] => false
  | atStart, c :: t =>
    (if c ≠ bsC then
      (addEscMatch q t).isSome || (atStart && (addEscMatch q (c :: t)).isSome)
    else
      atStart && (addEscMatch q (c :: t)).isSome)
    || hasUnescA q false t

/-- `unescaped_new_quote.search(body)` as a Boolean. -/
def hasUnesc (q s : List Char) : Bool := hasUnescA q true s

/-- Scan for the closing `\}(?:(?!\})|$)` of the f-expression pattern of
`normalize_string_quotes`: the first `}` that is not followed by another `}`,
with the lazy `.*?` in between unable to cross a newline.  Returns the
consumed content and the rest after the accepted `}`. -/
def findCloseA : List Char → Option (List Char × List Char)
  | [] => none
  | c :: t =>
    if c = cbC then
      match t with
      | [] => some ([], [])
      | d :: _ =>
        if d ≠ cbC then some ([], t)
        else (findCloseA t).map fun p => (c :: p.1, p.2)
    else if c = nlC then none
    else (findCloseA t).map fun p => (c :: p.1, p.2)

/-- `re.findall` for the f-expression pattern
`(?:(?<!\{)|^)\{([^{].*?)\}(?:(?!\})|$)` of `normalize_string_quotes`:
the list of bracket contents.  `prevOpen` tracks whether the preceding
character is `{` (for the lookbehind). -/
def fMatchesA : Nat → Bool → List Char → List (List Char)
  | 0, _, _ => []
  | _, _, [] => []
  | fuel + 1, prevOpen, c :: t =>
    if c = obC ∧ ¬prevOpen then
      match t with
      | [] => []
      | d :: t2 =>
        if d ≠ obC then
          match findCloseA t2 with
          | some p => (d :: p.1) :: fMatchesA fuel false p.2
          | none => fMatchesA fuel true t
        else fMatchesA fuel true t
    else
      fMatchesA fuel (c = obC) t

/-- The f-expression contents found in a candidate body. -/
def fMatches (s : List Char) : List (List Char) := fMatchesA (s.length + 1) false s

/-- The triple double quote. -/
def dq3 : List Char := [dqC, dqC, dqC]

/-- The triple single quote. -/
def sq3 : List Char := [sqC, sqC, sqC]

/-- The edge case of `strings.py` lines 227-229: when converting to the
triple double quote and the new body ends with a double quote, escape that
final quote so it does not run into the closing delimiter. -/
def tripleQuoteEdge (newQ newBody : List Char) : List Char :=
  if newQ = dq3 ∧ newBody.getLast? = some dqC then
    newBody.dropLast ++ [bsC, dqC]
  else newBody

/-- The final step of `normalize_string_quotes` (`strings.py` lines
212-238): the f-string backslash abort, the triple-double-quote
trailing-quote edge case, and the escape-count acceptance rule.  `body` and
`s` are the current (possibly updated) values of the source's variables of
the same names. -/
def nsqFinish (pfx origQ newQ body newBody s : List Char) : List Char :=
  if (pfx.any fun c => c.toLower = 'f') ∧
      (fMatches newBody).any (fun m => m.contains bsC) then s
  else
    let nb := tripleQuoteEdge newQ newBody
    let origEscapeCount := body.count bsC
    let newEscapeCount := nb.count bsC
    if origEscapeCount < newEscapeCount then s
    else if newEscapeCount = origEscapeCount ∧ origQ = [dqC] then s
    else pfx ++ newQ ++ nb ++ newQ

/-- The quote-pair choice of `normalize_string_quotes` (`strings.py` lines
177-185): given `value` (the input without its prefix), the original and
new quotes. -/
def nsqQuotes (value : List Char) : List Char × List Char :=
  if value.take 3 = sq3 then (sq3, dq3)
  else if value.take 1 = [dqC] then ([dqC], [sqC])
  else ([sqC], [dqC])

/-- The body slice `s[first_quote_pos + len(orig_quote) : -len(orig_quote)]`
of `strings.py` line 194. -/
def nsqBody (origQ : List Char) (firstQuotePos : Nat) (s : List Char) :
    List Char :=
  (s.drop (firstQuotePos + origQ.length)).take
    ((s.drop (firstQuotePos + origQ.length)).length - origQ.length)

/-- The full non-raw `new_body` of `strings.py` lines 205-211: remove
unnecessary escapes of the new quote, remove unnecessary escapes of the
original quote, then escape unescaped occurrences of the new quote. -/
def nsqNewBody (origQ newQ body : List Char) : List Char :=
  sub_twice (subUnesc newQ)
    (sub_twice (subEsc origQ) (sub_twice (subEsc newQ) body))

/-- The part of `normalize_string_quotes` after the quote has been located
(`strings.py` lines 190-211).  Returns `none` when the source returns `s`
early (raw string with an unescaped new quote), and otherwise the tuple
`(pfx, origQ, newQ, body, newBody, sCur)` of the source's variables at
line 212.  When the escape-removal changes the body, the source reassigns
both `body` and `s` (lines 206-209); when it does not, the reassignment
would be the identity, so `body` is uniformly the escape-removed value. -/
def nsqAfterFind (origQ newQ : List Char) (firstQuotePos : Nat) (s : List Char) :
    Option (List Char × List Char × List Char × List Char × List Char × List Char) :=
  if (s.take firstQuotePos).any (fun c => c.toLower = 'r') then
    if hasUnesc newQ (nsqBody origQ firstQuotePos s) then none
    else some (s.take firstQuotePos, origQ, newQ, nsqBody origQ firstQuotePos s,
      nsqBody origQ firstQuotePos s, s)
  else
    some (s.take firstQuotePos, origQ, newQ,
      sub_twice (subEsc newQ) (nsqBody origQ firstQuotePos s),
      nsqNewBody origQ newQ (nsqBody origQ firstQuotePos s),
      if nsqBody origQ firstQuotePos s ≠
          sub_twice (subEsc newQ) (nsqBody origQ firstQuotePos s) then
        s.take firstQuotePos ++ origQ ++
          sub_twice (subEsc newQ) (nsqBody origQ firstQuotePos s) ++ origQ
      else s)

/-- The body-rewriting part of `normalize_string_quotes` (`strings.py`
lines 173-211).  Returns `none` when the source returns `s` before reaching
line 212 (already triple-double-quoted; orig quote not found; raw string
with an unescaped new quote), and otherwise
`some (pfx, origQ, newQ, body, newBody, sCur)`: the values of the source's
variables `prefix`, `orig_quote`, `new_quote`, `body`, `new_body` and `s`
when control reaches line 212. -/
def nsqSteps (s : List Char) :
    Option (List Char × List Char × List Char × List Char × List Char × List Char) :=
  if (pyLstripSet STRING_PREFIX_CHARS s).take 3 = dq3 then none
  else
    match findSub (nsqQuotes (pyLstripSet STRING_PREFIX_CHARS s)).1 s with
    | none => none
    | some firstQuotePos =>
      nsqAfterFind (nsqQuotes (pyLstripSet STRING_PREFIX_CHARS s)).1
        (nsqQuotes (pyLstripSet STRING_PREFIX_CHARS s)).2 firstQuotePos s

/-- `normalize_string_quotes`: prefer double quotes but only if it does not
cause more escaping.  Exact embedding of `strings.py` lines 167-238 as the
composition of `nsqSteps` and `nsqFinish`; the `IndexError` that the Python
raises when the value after the prefix is empty cannot occur for leaf
strings and is modelled by returning `s`. -/
def normalize_string_quotes (s : List Char) : List Char :=
  match nsqSteps s with
  | none => s
  | some (pfx, origQ, newQ, body, newBody, sCur) =>
    nsqFinish pfx origQ newQ body newBody sCur

/-- `iterate_f_string`'s while loop: `i` is the current absolute index,
`stack` the curly-paren stack of opening indices; yields the half-open spans
of the f-expressions. -/
def fSpansA : Nat → Nat → List Nat → List Char → List (Nat × Nat)
  | 0, _, _, _ => []
  | _, _, _, [] => []
  | fuel + 1, i, stack, c :: t =>
    if c = obC then
      if stack = [] ∧ t.take 1 = [obC] then fSpansA fuel (i + 2) stack (t.drop 1)
      else fSpansA fuel (i + 1) (i :: stack) t
    else if c = cbC then
      match stack with
      | [] => fSpansA fuel (i + 1) [] t
      | j :: rest =>
        if rest = [] then (j, i + 1) :: fSpansA fuel (i + 1) rest t
        else fSpansA fuel (i + 1) rest t
    else if stack ≠ [] then
      let delim : List Char :=
        if (c :: t).take 3 = sq3 ∨ (c :: t).take 3 = dq3 then (c :: t).take 3
        else if c = sqC ∨ c = dqC then [c]
        else []
      if delim ≠ [] then
        let after := (c :: t).drop delim.length
        let consumed :=
          match findSub delim after with
          | some k => k + delim.length
          | none => after.length + delim.length
        fSpansA fuel (i + delim.length + consumed) stack (after.drop consumed)
      else fSpansA fuel (i + 1) stack t
    else
      fSpansA fuel (i + 1) stack t

/-- `iterate_f_string`: the spans of the expressions in an f-string. -/
def iterate_f_string (s : List Char) : List (Nat × Nat) :=
  fSpansA (s.length + 1) 0 [] s

/-- `fstring_contains_expr`. -/
def fstring_contains_expr (s : List Char) : Bool := iterate_f_string s ≠ []

/-- `normalize_f_string`: drop the `f` prefix and collapse doubled braces
when the f-string contains no f-expression; otherwise return the string
unchanged.  (The source's `assert_is_leaf_string` precondition check raises
only on malformed input and is recorded by `is_leaf_string`.) -/
def normalize_f_string (string pfx : List Char) : List Char :=
  if pfx.contains 'f' ∧ ¬fstring_contains_expr string then
    let newPfx := pyReplace ['f'] [] pfx
    let temp := string.drop pfx.length
    let temp2 := pyReplace [obC, obC] [obC] temp
    let temp3 := pyReplace [cbC, cbC] [cbC] temp2
    newPfx ++ temp3
  else string

/-! ### `src/black/comments.py` -/

/-- The token code for inline comments (`token.COMMENT` of
`blib2to3.pgen2.token`, which is not part of the sources; only its
distinctness from `STANDALONE_COMMENT` matters here). -/
def token_COMMENT : Nat := 53

/-- The fake token code for standalone comments (`STANDALONE_COMMENT` of
`black.nodes`, which is not part of the sources; only its distinctness from
`token_COMMENT` matters here). -/
def STANDALONE_COMMENT : Nat := 153

/-- `FMT_OFF`. -/
def FMT_OFF : List (List Char) :=
  ["# fmt: off".toList, "# fmt:off".toList, "# yapf: disable".toList]

/-- `FMT_SKIP`. -/
def FMT_SKIP : List (List Char) :=
  ["# fmt: skip".toList, "# fmt:skip".toList]

/-- `FMT_PASS`. -/
def FMT_PASS : List (List Char) := FMT_OFF ++ FMT_SKIP

/-- `FMT_ON`. -/
def FMT_ON : List (List Char) :=
  ["# fmt: on".toList, "# fmt:on".toList, "# yapf: enable".toList]

/-- `ProtoComment`: a parsed comment record. -/
structure ProtoComment where
  ctype : Nat
  value : List Char
  newlines : Nat
  consumed : Nat
deriving DecidableEq, Repr

/-- `make_comment`, step 1 (`comments.py` line 117): strip one leading
hash sign. -/
def mcStrip (content : List Char) : List Char :=
  if content.head? = some hashC then content.tail else content

/-- `make_comment`, step 2 (`comments.py` lines 120-125): replace a single
leading no-break space by an ordinary space unless the content begins with
`type:`. -/
def mcNbsp (content : List Char) : List Char :=
  if content ≠ [] ∧ content.head? = some nbspC ∧
      ¬("type:".toList.isPrefixOf (pyLstripWS content)) then
    ' ' :: content.tail
  else content

/-- `make_comment`, step 3 (`comments.py` lines 126-127): enforce one space
after the hash sign unless the next character is exempt. -/
def mcSpace (content : List Char) : List Char :=
  if content ≠ [] ∧ ¬([' ', '!', ':', hashC, sqC, '%'].contains (content.headD ' ')) then
    ' ' :: content
  else content

/-- `make_comment`: return a consistently formatted comment. -/
def make_comment (content : List Char) : List Char :=
  let content := pyRstripWS content
  if content = [] then [hashC]
  else hashC :: mcSpace (mcNbsp (mcStrip content))

/-- The line loop of `list_comments`, carrying the source's running state:
the current line `index`, the characters `consumed` so far, the blank-line
count `nlines`, and the count of `ignored` continuation lines. -/
def listCommentsA (is_endmarker : Bool) :
    List (List Char) → Nat → Nat → Nat → Nat → List ProtoComment
  | [], _, _, _, _ => []
  | line :: rest, index, consumed, nlines, ignored =>
    let consumed := consumed + line.length + 1
    let l := pyLstripWS line
    let nlines := if l = [] then nlines + 1 else nlines
    if l.head? ≠ some hashC then
      let ignored := if l.getLast? = some bsC then ignored + 1 else ignored
      listCommentsA is_endmarker rest (index + 1) consumed nlines ignored
    else
      let ctype := if index = ignored ∧ ¬is_endmarker then token_COMMENT
        else STANDALONE_COMMENT
      ⟨ctype, make_comment l, nlines, consumed⟩ ::
        listCommentsA is_endmarker rest (index + 1) consumed 0 ignored

/-- `list_comments`: parse `ProtoComment`s from a leaf prefix. -/
def list_comments (pfx : List Char) (is_endmarker : Bool) : List ProtoComment :=
  if pfx = [] ∨ ¬pfx.contains hashC then []
  else listCommentsA is_endmarker (splitCRLF pfx) 0 0 0 0

/-! ### The tree and the fixpoint loop of `normalize_fmt_off`

Modelled from the spec: the parse-tree type of `blib2to3.pytree` is not
part of the sources; following the spec's data model, a tree node is
either a leaf with a token kind, a text value, and a whitespace prefix, or
a composite with a kind tag and an ordered child list (parent
back-references are represented by the tree structure itself). -/

inductive PTree where
  | pleaf (ttype : Nat) (val : List Char) (pfx : List Char)
  | pnode (ttype : Nat) (children : List PTree)

mutual

/-- The prefixes of all leaves of a tree, in order. -/
def treePfxs : PTree → List (List Char)
  | .pleaf _ _ p => [p]
  | .pnode _ cs => listPfxs cs

/-- The prefixes of all leaves of a forest. -/
def listPfxs : List PTree → List (List Char)
  | [] => []
  | c :: r => treePfxs c ++ listPfxs r

end

/-- The weight a leaf prefix contributes to the termination measure. -/
def leafWeight (p : List Char) : Nat := 2 ^ p.length

/-- The termination measure of a forest: the sum over its leaves of
`2 ^ (prefix length)`. -/
def listMu (l : List PTree) : Nat := ((listPfxs l).map leafWeight).sum

/-- The termination measure of a tree: the sum over its leaves of
`2 ^ (prefix length)`. -/
def treeMu (t : PTree) : Nat := ((treePfxs t).map leafWeight).sum

/-- A marker comment of `convert_one_fmt_off_pair` found in a leaf prefix
`P`, together with the loop's `previous_consumed` value `pc` and the
comment's blank-line count `nl`: the comment's normalized value is a
`FMT_PASS` marker, and `pc` is either `0` or the `consumed` count of some
comment occurring earlier in `list_comments P` — exactly the values the
source loop (`comments.py` lines 143-147) can hold when it processes the
marker. -/
def MarkerAt (P cval : List Char) (pc nl : Nat) : Prop :=
  ∃ pre c suf, list_comments P false = pre ++ c :: suf ∧
    c.value = cval ∧ cval ∈ FMT_PASS ∧ c.newlines = nl ∧
    (pc = 0 ∨ ∃ d ∈ pre, d.consumed = pc)

/-- Modelled from the spec: one successful conversion performed by
`convert_one_fmt_off_pair` (`comments.py` lines 160-195), as a relation on
trees.  The tree-navigation helpers (`container_of`, `prev_sibling`,
`parent` of `black.nodes`/`blib2to3.pytree`) are not part of the sources;
following the spec, the selected span is a nonempty run `mid` of some
node's children, and the marker-carrying leaf is inside the span
(`fmt: off`/`fmt: on` spans start at the container of the leaf; the
skip-one parent case freezes the leaf's parent) or, in the skip-one
previous-sibling case, is the child directly after the span, whose prefix
the source rewrites in place with `str.replace`.  The span is replaced by
a single standalone-comment leaf whose prefix is
`first.prefix[:previous_consumed] + "\n" * comment.newlines` (lines
187-193); `firstPfx` is unconstrained here, which only makes the relation
larger than the code's behaviour. -/
inductive ConvertStep : PTree → PTree → Prop
  | span (ty : Nat) (pre mid post : List PTree)
      (hidden markerPfx cval firstPfx : List Char) (pc nl : Nat) :
      mid ≠ [] →
      markerPfx ∈ listPfxs mid →
      MarkerAt markerPfx cval pc nl →
      ConvertStep (.pnode ty (pre ++ mid ++ post))
        (.pnode ty (pre ++
          PTree.pleaf STANDALONE_COMMENT hidden
            (firstPfx.take pc ++ List.replicate nl nlC) :: post))
  | skipSibling (ty tyL : Nat) (pre mid post : List PTree)
      (hidden v P cval firstPfx : List Char) (pc nl : Nat) :
      mid ≠ [] →
      cval ∈ FMT_SKIP →
      MarkerAt P cval pc nl →
      containsSub P cval = true →
      ConvertStep (.pnode ty (pre ++ mid ++ PTree.pleaf tyL v P :: post))
        (.pnode ty (pre ++
          PTree.pleaf STANDALONE_COMMENT hidden
            (firstPfx.take pc ++ List.replicate nl nlC) ::
          PTree.pleaf tyL v (pyReplace cval [] P) :: post))
  | inChild (ty : Nat) (pre post : List PTree) (c c' : PTree) :
      ConvertStep c c' →
      ConvertStep (.pnode ty (pre ++ c :: post))
        (.pnode ty (pre ++ c' :: post))

/-! ### The `FMT_SKIP` branch of `generate_ignored_nodes`

The tree type `blib2to3.pytree` and the helpers of `black.nodes` are not
part of the sources.  Modelled from the spec: a tree node is a composite
with an ordered child list or a leaf with a whitespace prefix, and children
carry parent back-references; the navigation of `generate_ignored_nodes`
(`leaf.prev_sibling`, walking `prev_sibling.prev_sibling`, `leaf.parent`) is
represented by an explicit context: the list of the leaf's preceding
siblings, nearest first, and whether the leaf has a parent. -/

/-- A sibling of the marked leaf: its whitespace prefix and an identity. -/
structure SibNode where
  pfx : List Char
  idx : Nat
deriving DecidableEq, Repr

/-- The selection made by the `FMT_SKIP` branch of
`generate_ignored_nodes`: some preceding siblings, the leaf's parent, or
nothing. -/
inductive SkipSel where
  | sibs (l : List SibNode)
  | parentSel
  | noSel
deriving DecidableEq, Repr

/-- The sibling-collection loop of `generate_ignored_nodes`
(`comments.py` lines 211-217), returning the collected siblings nearest
first (the source builds the same list in original order via
`insert(0, ...)`): collect the immediate previous sibling, then keep
walking backwards while the currently collected sibling's own prefix
contains no newline and a further sibling exists. -/
def collectBack : SibNode → List SibNode → List SibNode
  | x, [] => [x]
  | x, y :: r => if x.pfx.contains nlC then [x] else x :: collectBack y r

/-- The `FMT_SKIP` branch of `generate_ignored_nodes` (`comments.py`
lines 207-222): the selection, and the leaf prefix after the in-place
`leaf.prefix.replace(comment.value, "")`.  `prevRev` lists the leaf's
preceding siblings nearest first; `hasParent` tells whether
`leaf.parent is not None`. -/
def generate_ignored_nodes_skip (leafPfx cval : List Char)
    (prevRev : List SibNode) (hasParent : Bool) : SkipSel × List Char :=
  match prevRev with
  | p :: rest =>
    if containsSub leafPfx cval then
      (SkipSel.sibs (collectBack p rest).reverse, pyReplace cval [] leafPfx)
    else if hasParent then (SkipSel.parentSel, leafPfx)
    else (SkipSel.noSel, leafPfx)
  | [] =>
    if hasParent then (SkipSel.parentSel, leafPfx)
    else (SkipSel.noSel, leafPfx)

/-! ### The orchestration layer of `src/black/__init__.py`

`format_str` invokes the parser (`blib2to3`) and the line generator, both
external collaborators outside the sources, so the formatter appears as an
abstract function `format_str : String → String`; similarly the abstract
syntax comparison of `assert_equivalent` (`parse_ast`/`stringify_ast`)
appears as an abstract Boolean test `equivOk`, and the notebook formatter
`format_ipynb_string` as an abstract fallible function.  The control flow of
`format_file_contents`, `check_stability_and_equivalence`,
`assert_equivalent` and `assert_stable` is embedded exactly. -/

/-- The exceptions raised by the embedded orchestration layer:
`NothingChanged` and `AssertionError`. -/
inductive BlackErr where
  | nothingChanged
  | assertionError
deriving DecidableEq, Repr

/-- `assert_equivalent src dst`: raise `AssertionError` if `src` and `dst`
are not equivalent, where the external AST comparison is `equivOk`. -/
def assert_equivalent (equivOk : String → String → Bool) (src dst : String) :
    Except BlackErr Unit :=
  if equivOk src dst then Except.ok () else Except.error BlackErr.assertionError

/-- `assert_stable src dst`: raise `AssertionError` if `dst` reformats
differently the second time (the source deliberately reformats `dst` once
more rather than calling the checked pipeline again). -/
def assert_stable (format_str : String → String) (src dst : String) :
    Except BlackErr Unit :=
  let newdst := format_str dst
  if dst ≠ newdst then Except.error BlackErr.assertionError else Except.ok ()

/-- `check_stability_and_equivalence`: the equivalence check followed by the
stability check; a raise in the first propagates. -/
def check_stability_and_equivalence (format_str : String → String)
    (equivOk : String → String → Bool) (src dst : String) :
    Except BlackErr Unit :=
  match assert_equivalent equivOk src dst with
  | Except.error e => Except.error e
  | Except.ok _ => assert_stable format_str src dst

/-- `format_file_contents`: reformat the contents of a file.  Raises
`NothingChanged` for whitespace-only input and when the output equals the
input; runs the stability and equivalence checks only when `fast` is false
and the mode is not a notebook (a raise inside them propagates). -/
def format_file_contents (format_str : String → String)
    (format_ipynb : String → Except BlackErr String)
    (equivOk : String → String → Bool)
    (src_contents : String) (fast is_ipynb : Bool) :
    Except BlackErr String :=
  if pyStripWS src_contents.toList = [] then
    Except.error BlackErr.nothingChanged
  else
    match
      (if is_ipynb then format_ipynb src_contents
       else Except.ok (format_str src_contents)) with
    | Except.error e => Except.error e
    | Except.ok dst_contents =>
      if src_contents = dst_contents then
        Except.error BlackErr.nothingChanged
      else if ¬fast ∧ ¬is_ipynb then
        match check_stability_and_equivalence format_str equivOk
            src_contents dst_contents with
        | Except.error e => Except.error e
        | Except.ok _ => Except.ok dst_contents
      else Except.ok dst_contents

/-! ### Specification-side definitions for refinement claims -/

/-- Comment normalization following the specification's wording: trim
trailing whitespace; empty content becomes the bare `#`; strip one leading
`#`; a single leading no-break space is replaced by an ordinary space
unless the content begins with `type:`; otherwise exactly one space is
enforced after `#` unless the next character is one of `!`, `:`, `#`, the
single quote, `%`, or is already a space. -/
def make_comment_spec (raw : List Char) : List Char :=
  let content := pyRstripWS raw
  if content = [] then [hashC]
  else
    let body := if content.head? = some hashC then content.tail else content
    let body :=
      if body.head? = some nbspC ∧
          ¬("type:".toList.isPrefixOf (pyLstripWS body)) then
        ' ' :: body.tail
      else body
    if body ≠ [] ∧ ¬([' ', '!', ':', hashC, sqC, '%'].contains (body.headD ' ')) then
      hashC :: ' ' :: body
    else hashC :: body

/-- The minimum indentation following the claim's wording: the minimum,
over all lines except the first with blank lines excluded, of the length of
the line's leading whitespace. -/
def fdIndentSpec (lines : List (List Char)) : Option Nat :=
  ((lines.drop 1).filterMap fun line =>
    if pyLstripWS line = [] then none
    else some (line.takeWhile pyIsSpace).length).min?

/-- Docstring re-indentation following the claim's wording: expand leading
tabs on every line, compute the minimum indentation over all lines except
the first (blank lines excluded), strip exactly that many characters from
each subsequent line, fully trim the first line, and re-prefix each
non-blank retained subsequent line (and the final line even if blank) with
the target indentation. -/
def fix_docstring_spec (docstring pfx : List Char) : List Char :=
  if docstring = [] then []
  else
    match fdIndentSpec (lines_with_leading_tabs_expanded docstring) with
    | none =>
      joinNL [pyStripWS ((lines_with_leading_tabs_expanded docstring).headD [])]
    | some ind =>
      joinNL (pyStripWS ((lines_with_leading_tabs_expanded docstring).headD []) ::
        fdTail pfx ind (lines_with_leading_tabs_expanded docstring))

/-- Combination of a running optional minimum with a further optional
minimum. -/
def minOpt : Option Nat → Option Nat → Option Nat
  | none, m => m
  | some x, none => some x
  | some x, some y => some (min x y)

/-- Is the line an ignored continuation line: a non-comment line that ends
in a line-continuation backslash (after stripping leading whitespace)? -/
def ignoredLine (line : List Char) : Bool :=
  (pyLstripWS line).head? ≠ some hashC ∧ (pyLstripWS line).getLast? = some bsC

/-- Comment classification following the claim's wording: scanning the
prefix's lines in order, a comment line is inline (`token.COMMENT`) exactly
when every earlier line was an ignored continuation line and the leaf is
not the end-of-input marker, and standalone otherwise; `allPrior` records
whether every earlier line was ignored. -/
def list_comments_spec (is_endmarker : Bool) :
    Bool → List (List Char) → List (Nat × List Char)
  | _, [] => []
  | allPrior, line :: rest =>
    if (pyLstripWS line).head? = some hashC then
      ((if allPrior ∧ ¬is_endmarker then token_COMMENT else STANDALONE_COMMENT),
        make_comment (pyLstripWS line)) ::
        list_comments_spec is_endmarker false rest
    else
      list_comments_spec is_endmarker (allPrior && ignoredLine line) rest

/-- The number of backslashes immediately at the end of a string. -/
def trailingEscCount (l : List Char) : Nat :=
  (l.reverse.takeWhile fun c => c = bsC).length

/-! ### Theorems -/

/-- The combined safety check succeeds exactly when the equivalence test
passes and the output is a fixed point of the formatter. -/
theorem cse_ok_iff (fs : String → String) (eq : String → String → Bool)
    (src dst : String) :
    check_stability_and_equivalence fs eq src dst = Except.ok () ↔
      (eq src dst = true ∧ fs dst = dst) := by
  unfold check_stability_and_equivalence assert_equivalent assert_stable
  by_cases h : eq src dst = true
  · rw [if_pos h]
    have h2 : (match (Except.ok () : Except BlackErr Unit) with
        | Except.error e => Except.error e
        | Except.ok _ =>
          if dst ≠ fs dst then Except.error BlackErr.assertionError
          else Except.ok ()) =
        (if dst ≠ fs dst then Except.error BlackErr.assertionError
          else (Except.ok () : Except BlackErr Unit)) := rfl
    rw [h2]
    by_cases h3 : dst ≠ fs dst
    · rw [if_pos h3]
      simp only [h, true_and]
      exact ⟨fun hx => Except.noConfusion hx, fun hx => absurd hx.symm h3⟩
    · rw [if_neg h3]
      push_neg at h3
      simp [h, h3.symm]
  · rw [if_neg h]
    have h2 : (match (Except.error BlackErr.assertionError : Except BlackErr Unit) with
        | Except.error e => Except.error e
        | Except.ok _ =>
          if dst ≠ fs dst then Except.error BlackErr.assertionError
          else Except.ok ()) =
        (Except.error BlackErr.assertionError : Except BlackErr Unit) := rfl
    rw [h2]
    simp [h]

/-- Inversion for a successful non-notebook `format_file_contents` call:
the output is the formatter's output, the input was not whitespace-only,
the output differs from the input, and in safe mode (`fast = false`) the
equivalence check passed and the output is a fixed point of the
formatter. -/
theorem ffc_ok_elim (fs : String → String) (fi : String → Except BlackErr String)
    (eq : String → String → Bool) (src dst : String) (fast : Bool)
    (h : format_file_contents fs fi eq src fast false = Except.ok dst) :
    dst = fs src ∧ pyStripWS src.toList ≠ [] ∧ src ≠ dst ∧
    (fast = false → eq src dst = true ∧ fs dst = dst) := by
  by_cases h1 : pyStripWS src.toList = []
  · unfold format_file_contents at h
    rw [if_pos h1] at h
    exact Except.noConfusion h
  · unfold format_file_contents at h
    rw [if_neg h1, if_neg Bool.false_ne_true] at h
    have h' : (if src = fs src then Except.error BlackErr.nothingChanged
        else if ¬fast = true ∧ ¬false = true then
          match check_stability_and_equivalence fs eq src (fs src) with
          | Except.error e => Except.error e
          | Except.ok _ => Except.ok (fs src)
        else Except.ok (fs src)) = Except.ok dst := h
    by_cases h2 : src = fs src
    · rw [if_pos h2] at h'
      exact Except.noConfusion h'
    · rw [if_neg h2] at h'
      cases fast with
      | true =>
        rw [if_neg (by simp)] at h'
        obtain rfl : fs src = dst := Except.ok.inj h'
        exact ⟨rfl, h1, h2, fun hc => Bool.noConfusion hc⟩
      | false =>
        rw [if_pos (by simp)] at h'
        rcases hc : check_stability_and_equivalence fs eq src (fs src) with e | u
        · rw [hc] at h'
          exact Except.noConfusion h'
        · rw [hc] at h'
          obtain rfl : fs src = dst := Except.ok.inj h'
          obtain ⟨he, hs⟩ := (cse_ok_iff fs eq src (fs src)).mp (by rw [hc])
          exact ⟨rfl, h1, h2, fun _ => ⟨he, hs⟩⟩

/-- In safe mode, a non-notebook input whose formatted output differs from
the input and fails the equivalence check makes `format_file_contents`
raise `AssertionError`. -/
theorem ffc_equiv_fail (fs : String → String) (fi : String → Except BlackErr String)
    (eq : String → String → Bool) (src : String)
    (h1 : pyStripWS src.toList ≠ []) (h2 : src ≠ fs src)
    (h3 : eq src (fs src) = false) :
    format_file_contents fs fi eq src false false =
      Except.error BlackErr.assertionError := by
  unfold format_file_contents
  rw [if_neg h1, if_neg Bool.false_ne_true]
  show (if src = fs src then Except.error BlackErr.nothingChanged
      else if ¬false = true ∧ ¬false = true then
        match check_stability_and_equivalence fs eq src (fs src) with
        | Except.error e => Except.error e
        | Except.ok _ => Except.ok (fs src)
      else Except.ok (fs src)) = Except.error BlackErr.assertionError
  rw [if_neg h2, if_pos (by simp)]
  have hc : check_stability_and_equivalence fs eq src (fs src) =
      Except.error BlackErr.assertionError := by
    unfold check_stability_and_equivalence assert_equivalent
    rw [if_neg (by simp [h3])]
  rw [hc]

/-- Claim C1: formatting is idempotent on every output the engine
delivers.  `format_str`'s parser and line renderer are external
collaborators, so the formatter appears as an arbitrary function `fs`;
for every such function, whenever the safe (`fast = false`), non-notebook
pipeline accepts `src` and returns `dst`, a second pass of the formatter
on `dst` returns `dst` unchanged, and formatting `dst` again through the
pipeline signals `NothingChanged`: `format(format(text)) = format(text)`. -/
theorem format_file_contents_idempotent
    (fs : String → String) (fi : String → Except BlackErr String)
    (eq : String → String → Bool) (src dst : String)
    (h : format_file_contents fs fi eq src false false = Except.ok dst) :
    fs dst = dst ∧
    format_file_contents fs fi eq dst false false =
      Except.error BlackErr.nothingChanged := by
  obtain ⟨-, -, -, hsafe⟩ := ffc_ok_elim fs fi eq src dst false h
  obtain ⟨-, hfix⟩ := hsafe rfl
  refine ⟨hfix, ?_⟩
  by_cases h1 : pyStripWS dst.toList = []
  · unfold format_file_contents
    rw [if_pos h1]
  · unfold format_file_contents
    rw [if_neg h1, if_neg Bool.false_ne_true]
    show (if dst = fs dst then Except.error BlackErr.nothingChanged
        else if ¬false = true ∧ ¬false = true then
          match check_stability_and_equivalence fs eq dst (fs dst) with
          | Except.error e => Except.error e
          | Except.ok _ => Except.ok (fs dst)
        else Except.ok (fs dst)) = Except.error BlackErr.nothingChanged
    rw [if_pos hfix.symm]

/-- Witness for C1 at a concrete formatter and input. -/
theorem format_file_contents_idempotent_w :
    (fun (_ : String) => "x") "x" = "x" ∧
    format_file_contents (fun _ => "x") (fun _ => Except.error BlackErr.nothingChanged)
      (fun _ _ => true) "x" false false = Except.error BlackErr.nothingChanged :=
  format_file_contents_idempotent (fun _ => "x")
    (fun _ => Except.error BlackErr.nothingChanged) (fun _ _ => true) "a" "x" rfl

/-- Counterexample for claim C2: with `fast = true` the pipeline returns a
changed output without performing the equivalence verification — here the
verifier `eq` rejects every pair, yet the call succeeds, so the check was
skipped for an input that changes output. -/
theorem format_file_contents_fast_skips_check :
    format_file_contents (fun s => s ++ "!")
      (fun _ => Except.error BlackErr.nothingChanged)
      (fun _ _ => false) "a" true false = Except.ok "a!" ∧
    ("a" : String) ≠ "a!" := by
  exact ⟨rfl, by decide⟩

/-- Claim C2 (amended): for every non-notebook input whose formatted output
differs from the input, `format_file_contents` performs the
semantic-equivalence verification before returning whenever safety checks
are requested (`fast = false`): every successful safe call passed the
verification on a changed output, and a verification mismatch makes the
safe call raise `AssertionError` instead of returning the output.  With
`fast = true` the verification is skipped. -/
theorem format_file_contents_equivalence_checked
    (fs : String → String) (fi : String → Except BlackErr String)
    (eq : String → String → Bool) :
    (∀ src dst, format_file_contents fs fi eq src false false = Except.ok dst →
      src ≠ dst ∧ eq src dst = true) ∧
    (∀ src, pyStripWS src.toList ≠ [] → src ≠ fs src → eq src (fs src) = false →
      format_file_contents fs fi eq src false false =
        Except.error BlackErr.assertionError) := by
  constructor
  · intro src dst h
    obtain ⟨-, -, hne, hsafe⟩ := ffc_ok_elim fs fi eq src dst false h
    exact ⟨hne, (hsafe rfl).1⟩
  · intro src h1 h2 h3
    exact ffc_equiv_fail fs fi eq src h1 h2 h3

/-- Witness for the amended C2 at a concrete formatter and input. -/
theorem format_file_contents_equivalence_checked_w :
    (("a" : String) ≠ "x" ∧ (fun (_ _ : String) => true) "a" "x" = true) ∧
    format_file_contents (fun _ => "x")
      (fun _ => Except.error BlackErr.nothingChanged)
      (fun _ _ => false) "a" false false = Except.error BlackErr.assertionError := by
  refine ⟨?_, ?_⟩
  · exact (format_file_contents_equivalence_checked (fun _ => "x")
      (fun _ => Except.error BlackErr.nothingChanged) (fun _ _ => true)).1 "a" "x" rfl
  · exact (format_file_contents_equivalence_checked (fun _ => "x")
      (fun _ => Except.error BlackErr.nothingChanged) (fun _ _ => false)).2 "a"
      (by decide) (by decide) rfl

/-- Counterexample for claim C3: on the double-quoted input consisting of an
escaped single quote, the reject branches do not return `s` unchanged — the
function first removes the unnecessary escape of the alternate quote and
returns that modified string.  All branches of the claim predict either the
unchanged input or a single-quoted rewrite, yet the result is double-quoted
and differs from the input. -/
theorem normalize_string_quotes_returns_modified :
    normalize_string_quotes [dqC, bsC, sqC, dqC] = [dqC, sqC, dqC] ∧
    normalize_string_quotes [dqC, bsC, sqC, dqC] ≠ [dqC, bsC, sqC, dqC] ∧
    is_leaf_string [dqC, bsC, sqC, dqC] = true := by decide

/-- Unfolding `normalize_string_quotes` along `nsqSteps`. -/
theorem normalize_string_quotes_eq_finish
    (s pfx oq nq body nb sCur : List Char)
    (h : nsqSteps s = some (pfx, oq, nq, body, nb, sCur)) :
    normalize_string_quotes s = nsqFinish pfx oq nq body nb sCur := by
  unfold normalize_string_quotes
  rw [h]

/-- Claim C3 (amended): the acceptance rule of `normalize_string_quotes`
compares the escape count of the candidate body (after the triple-quote
edge fix) with that of the current body — the body with unnecessary
alternate-quote escapes already removed — and in the reject branches
returns the current `s` (the input with those escapes removed), not
necessarily the original input: strictly more escapes rejects, a tie with
a double-quoted original rejects, and otherwise the requoted rewrite
`prefix ++ new_quote ++ new_body ++ new_quote` is returned (double quotes
win ties). -/
theorem normalize_string_quotes_acceptance
    (s pfx oq nq body nb sCur : List Char)
    (h : nsqSteps s = some (pfx, oq, nq, body, nb, sCur))
    (hf : ¬((pfx.any fun c => c.toLower = 'f') ∧
        (fMatches nb).any fun m => m.contains bsC)) :
    (body.count bsC < (tripleQuoteEdge nq nb).count bsC →
      normalize_string_quotes s = sCur) ∧
    ((tripleQuoteEdge nq nb).count bsC = body.count bsC ∧ oq = [dqC] →
      normalize_string_quotes s = sCur) ∧
    ((tripleQuoteEdge nq nb).count bsC ≤ body.count bsC ∧
        ¬((tripleQuoteEdge nq nb).count bsC = body.count bsC ∧ oq = [dqC]) →
      normalize_string_quotes s = pfx ++ nq ++ tripleQuoteEdge nq nb ++ nq) := by
  rw [normalize_string_quotes_eq_finish s pfx oq nq body nb sCur h]
  unfold nsqFinish
  rw [if_neg hf]
  refine ⟨fun hc => ?_, fun hc => ?_, fun hc => ?_⟩
  · exact if_pos hc
  · show (if _ < _ then sCur else if _ then sCur else _) = sCur
    rw [if_neg (by omega), if_pos hc]
  · show (if _ < _ then sCur else if _ then sCur else _) = _
    rw [if_neg (not_lt.mpr hc.1), if_neg hc.2]

/-- Witness for the amended C3 on the literal `'a'`, which the tie rule
rewrites to double quotes. -/
theorem normalize_string_quotes_acceptance_w :
    nsqSteps [sqC, 'a', sqC] =
      some ([], [sqC], [dqC], ['a'], ['a'], [sqC, 'a', sqC]) ∧
    normalize_string_quotes [sqC, 'a', sqC] =
      [] ++ [dqC] ++ tripleQuoteEdge [dqC] ['a'] ++ [dqC] := by
  refine ⟨rfl, ?_⟩
  exact (normalize_string_quotes_acceptance [sqC, 'a', sqC] [] [sqC] [dqC]
    ['a'] ['a'] [sqC, 'a', sqC] rfl (by decide)).2.2 (by decide)

/-- Counterexample for claim C4: a literal with the upper-case `F` prefix
and no expression spans is returned unchanged by `normalize_f_string`
(the source tests `"f" in prefix`, lower case only), while the claim
requires the `f` to be dropped and the doubled braces collapsed. -/
theorem normalize_f_string_uppercase_unchanged :
    iterate_f_string "F\x22\x7b\x7ba\x7d\x7d\x22".toList = [] ∧
    normalize_f_string "F\x22\x7b\x7ba\x7d\x7d\x22".toList "F".toList =
      "F\x22\x7b\x7ba\x7d\x7d\x22".toList ∧
    "F\x22\x7b\x7ba\x7d\x7d\x22".toList ≠ "\x22\x7ba\x7d\x22".toList ∧
    is_leaf_string "F\x22\x7b\x7ba\x7d\x7d\x22".toList = true := by decide

/-- Claim C4 (amended): for every string literal whose prefix contains a
lower-case `f` and in which the interpolation-span scanner finds zero
expression spans, `normalize_f_string` removes every `f` from the prefix
and collapses every doubled-brace escape to a single brace; every literal
with at least one expression span is returned unchanged.  In particular
`f"{{literal}}"` normalizes to `"{literal}"` and `f"{x}"` is unchanged. -/
theorem normalize_f_string_spec (string pfx : List Char) :
    (pfx.contains 'f' = true → iterate_f_string string = [] →
      normalize_f_string string pfx =
        pyReplace ['f'] [] pfx ++
          pyReplace [cbC, cbC] [cbC]
            (pyReplace [obC, obC] [obC] (string.drop pfx.length))) ∧
    (iterate_f_string string ≠ [] → normalize_f_string string pfx = string) ∧
    normalize_f_string "f\x22\x7b\x7bliteral\x7d\x7d\x22".toList "f".toList =
      "\x22\x7bliteral\x7d\x22".toList ∧
    normalize_f_string "f\x22\x7bx\x7d\x22".toList "f".toList =
      "f\x22\x7bx\x7d\x22".toList := by
  refine ⟨fun h1 h2 => ?_, fun h1 => ?_, by decide, by decide⟩
  · unfold normalize_f_string
    rw [if_pos ⟨h1, by simp [fstring_contains_expr, h2]⟩]
  · unfold normalize_f_string
    rw [if_neg (by simp [fstring_contains_expr, h1])]

/-- Witness for the amended C4 on the raw-f literal `rf"{{a}}"`. -/
theorem normalize_f_string_spec_w :
    ("rf".toList.contains 'f' = true ∧
      iterate_f_string "rf\x22\x7b\x7ba\x7d\x7d\x22".toList = []) ∧
    normalize_f_string "rf\x22\x7b\x7ba\x7d\x7d\x22".toList "rf".toList =
      pyReplace ['f'] [] "rf".toList ++
        pyReplace [cbC, cbC] [cbC]
          (pyReplace [obC, obC] [obC]
            ("rf\x22\x7b\x7ba\x7d\x7d\x22".toList.drop "rf".toList.length)) :=
  ⟨⟨by decide, by decide⟩,
    (normalize_f_string_spec "rf\x22\x7b\x7ba\x7d\x7d\x22".toList "rf".toList).1
      (by decide) (by decide)⟩

/-- Characterisation of the sibling-collection loop: it collects a maximal
chain — some initial segment of the preceding siblings (nearest first) all
of whose members except possibly the last have newline-free prefixes, and
which stops only at a newline-carrying prefix or at the end of the sibling
list. -/
theorem collectBack_eq (p : SibNode) (rest : List SibNode) :
    ∃ k, collectBack p rest = (p :: rest).take (k + 1) ∧
      (∀ x ∈ (p :: rest).take k, x.pfx.contains nlC = false) ∧
      (k + 1 = (p :: rest).length ∨
        ((p :: rest).get? k).map (fun x => x.pfx.contains nlC) = some true) := by
  induction rest generalizing p with
  | nil =>
    refine ⟨0, ?_, ?_, Or.inl rfl⟩
    · rfl
    · intro x hx
      simp at hx
  | cons y r ih =>
    by_cases hnl : p.pfx.contains nlC = true
    · refine ⟨0, ?_, ?_, Or.inr ?_⟩
      · unfold collectBack
        rw [if_pos hnl]
        rfl
      · intro x hx
        simp at hx
      · rw [show ((p :: y :: r).get? 0).map (fun x => x.pfx.contains nlC) =
          some (p.pfx.contains nlC) from rfl, hnl]
    · obtain ⟨k, h1, h2, h3⟩ := ih y
      refine ⟨k + 1, ?_, ?_, ?_⟩
      · unfold collectBack
        rw [if_neg hnl, h1]
        rfl
      · intro x hx
        rw [List.take_succ_cons] at hx
        rcases List.mem_cons.mp hx with rfl | hx
        · exact Bool.eq_false_iff.mpr hnl
        · exact h2 x hx
      · rcases h3 with h3 | h3
        · refine Or.inl ?_
          simp only [List.length_cons] at h3 ⊢
          omega
        · refine Or.inr ?_
          rw [List.get?_cons_succ]
          exact h3

/-- Counterexample for claim C5: a leaf carrying a `# fmt: skip` marker (its
prefix normalizes to the marker `# fmt:skip`) that has a previous sibling
nevertheless gets its parent selected, because the normalized marker text
does not occur verbatim in the raw prefix — a condition the claim omits. -/
theorem generate_ignored_nodes_skip_parent_despite_sibling :
    (list_comments "  #fmt:skip".toList false).map (fun c => c.value) =
      ["# fmt:skip".toList] ∧
    "# fmt:skip".toList ∈ FMT_SKIP ∧
    (generate_ignored_nodes_skip "  #fmt:skip".toList "# fmt:skip".toList
      [⟨[], 0⟩] true).1 = SkipSel.parentSel := by
  refine ⟨by decide, by decide, by decide⟩

/-- Claim C5 (amended): for a leaf carrying a skip-one marker, the nodes
selected for freezing are: when the normalized marker text occurs verbatim
in the leaf's prefix and the leaf has a previous sibling, the maximal
backward chain of preceding siblings — walking back while each collected
sibling's own prefix contains no newline — yielded in original order;
otherwise (in particular when the leaf has no previous sibling) the leaf's
immediate parent node, when present. -/
theorem generate_ignored_nodes_skip_spec (leafPfx cval : List Char)
    (prevRev : List SibNode) (hasParent : Bool) :
    (containsSub leafPfx cval = true → ∀ p rest, prevRev = p :: rest →
      ∃ k, (generate_ignored_nodes_skip leafPfx cval prevRev hasParent).1 =
          SkipSel.sibs ((prevRev.take (k + 1)).reverse) ∧
        (∀ x ∈ prevRev.take k, x.pfx.contains nlC = false) ∧
        (k + 1 = prevRev.length ∨
          (prevRev.get? k).map (fun x => x.pfx.contains nlC) = some true)) ∧
    (prevRev = [] → hasParent = true →
      (generate_ignored_nodes_skip leafPfx cval prevRev hasParent).1 =
        SkipSel.parentSel) ∧
    (containsSub leafPfx cval = false → hasParent = true →
      (generate_ignored_nodes_skip leafPfx cval prevRev hasParent).1 =
        SkipSel.parentSel) := by
  refine ⟨fun hsub p rest hpr => ?_, fun hpr hpar => ?_, fun hsub hpar => ?_⟩
  · subst hpr
    obtain ⟨k, h1, h2, h3⟩ := collectBack_eq p rest
    refine ⟨k, ?_, h2, h3⟩
    show (generate_ignored_nodes_skip leafPfx cval (p :: rest) hasParent).1 = _
    simp only [generate_ignored_nodes_skip]
    rw [if_pos hsub, h1]
  · subst hpr
    simp only [generate_ignored_nodes_skip]
    rw [if_pos hpar]
  · cases prevRev with
    | nil =>
      simp only [generate_ignored_nodes_skip]
      rw [if_pos hpar]
    | cons p rest =>
      simp only [generate_ignored_nodes_skip]
      rw [if_neg (by simp [hsub]), if_pos hpar]

/-- Witness for the amended C5: a three-token statement trailed by the
marker is collected whole, in original order. -/
theorem generate_ignored_nodes_skip_spec_w :
    containsSub "x  # fmt: skip".toList "# fmt: skip".toList = true ∧
    ∃ k, (generate_ignored_nodes_skip "x  # fmt: skip".toList
        "# fmt: skip".toList [⟨[], 2⟩, ⟨[' '], 1⟩, ⟨[nlC], 0⟩] true).1 =
        SkipSel.sibs (([(⟨[], 2⟩ : SibNode), ⟨[' '], 1⟩, ⟨[nlC], 0⟩].take (k + 1)).reverse) ∧
      (∀ x ∈ [(⟨[], 2⟩ : SibNode), ⟨[' '], 1⟩, ⟨[nlC], 0⟩].take k,
        x.pfx.contains nlC = false) ∧
      (k + 1 = [(⟨[], 2⟩ : SibNode), ⟨[' '], 1⟩, ⟨[nlC], 0⟩].length ∨
        ([(⟨[], 2⟩ : SibNode), ⟨[' '], 1⟩, ⟨[nlC], 0⟩].get? k).map
          (fun x => x.pfx.contains nlC) = some true) :=
  ⟨by decide,
    (generate_ignored_nodes_skip_spec "x  # fmt: skip".toList
      "# fmt: skip".toList [⟨[], 2⟩, ⟨[' '], 1⟩, ⟨[nlC], 0⟩] true).1
      (by decide) _ _ rfl⟩

/-- The conditions of the source's no-break-space step and the
specification's wording coincide: a `head? = some` test already implies
nonemptiness. -/
theorem mcNbsp_eq_spec (b : List Char) :
    mcNbsp b = if b.head? = some nbspC ∧
        ¬("type:".toList.isPrefixOf (pyLstripWS b)) then ' ' :: b.tail else b := by
  unfold mcNbsp
  by_cases h : b.head? = some nbspC ∧ ¬("type:".toList.isPrefixOf (pyLstripWS b))
  · rw [if_pos h, if_pos ⟨fun he => by simp [he] at h, h.1, h.2⟩]
  · rw [if_neg h, if_neg fun hc => h ⟨hc.2.1, hc.2.2⟩]

/-- Claim C8: `make_comment` implements exactly the normalization the
specification describes, and in particular turns `#comment` into
`# comment` while leaving `#!shebang-like` unchanged. -/
theorem make_comment_correct :
    (∀ raw, make_comment raw = make_comment_spec raw) ∧
    make_comment "#comment".toList = "# comment".toList ∧
    make_comment "#!shebang-like".toList = "#!shebang-like".toList := by
  refine ⟨fun raw => ?_, by decide, by decide⟩
  unfold make_comment make_comment_spec
  by_cases h1 : pyRstripWS raw = []
  · rw [if_pos h1, if_pos h1]
  · rw [if_neg h1, if_neg h1]
    show hashC :: mcSpace (mcNbsp (mcStrip (pyRstripWS raw))) = _
    rw [mcNbsp_eq_spec]
    show _ = (let body := mcStrip (pyRstripWS raw)
      let body := if body.head? = some nbspC ∧
          ¬("type:".toList.isPrefixOf (pyLstripWS body)) then ' ' :: body.tail else body
      if body ≠ [] ∧ ¬([' ', '!', ':', hashC, sqC, '%'].contains (body.headD ' ')) then
        hashC :: ' ' :: body
      else hashC :: body)
    show _ = (if (if (mcStrip (pyRstripWS raw)).head? = some nbspC ∧
          ¬("type:".toList.isPrefixOf (pyLstripWS (mcStrip (pyRstripWS raw)))) then
            ' ' :: (mcStrip (pyRstripWS raw)).tail else mcStrip (pyRstripWS raw)) ≠ [] ∧
          ¬([' ', '!', ':', hashC, sqC, '%'].contains
            ((if (mcStrip (pyRstripWS raw)).head? = some nbspC ∧
              ¬("type:".toList.isPrefixOf (pyLstripWS (mcStrip (pyRstripWS raw)))) then
                ' ' :: (mcStrip (pyRstripWS raw)).tail
              else mcStrip (pyRstripWS raw)).headD ' ')) then
        hashC :: ' ' :: (if (mcStrip (pyRstripWS raw)).head? = some nbspC ∧
          ¬("type:".toList.isPrefixOf (pyLstripWS (mcStrip (pyRstripWS raw)))) then
            ' ' :: (mcStrip (pyRstripWS raw)).tail else mcStrip (pyRstripWS raw))
      else hashC :: (if (mcStrip (pyRstripWS raw)).head? = some nbspC ∧
        ¬("type:".toList.isPrefixOf (pyLstripWS (mcStrip (pyRstripWS raw)))) then
          ' ' :: (mcStrip (pyRstripWS raw)).tail else mcStrip (pyRstripWS raw)))
    generalize (if (mcStrip (pyRstripWS raw)).head? = some nbspC ∧
      ¬("type:".toList.isPrefixOf (pyLstripWS (mcStrip (pyRstripWS raw)))) then
        ' ' :: (mcStrip (pyRstripWS raw)).tail else mcStrip (pyRstripWS raw)) = b
    unfold mcSpace
    by_cases h2 : b ≠ [] ∧ ¬([' ', '!', ':', hashC, sqC, '%'].contains (b.headD ' '))
    · rw [if_pos h2, if_pos h2]
    · rw [if_neg h2, if_neg h2]

/-- The source's indentation measure `len(line) - len(line.lstrip())` is
the length of the line's leading whitespace run. -/
theorem indent_measure_eq (l : List Char) :
    l.length - (pyLstripWS l).length = (l.takeWhile pyIsSpace).length := by
  have h := congrArg List.length (List.takeWhile_append_dropWhile (p := pyIsSpace) (l := l))
  rw [List.length_append] at h
  unfold pyLstripWS
  omega

/-- The left fold of `fdIndent` computes the minimum of the non-blank
indentation measures, combined with the accumulator. -/
theorem fdIndent_fold (ls : List (List Char)) : ∀ acc : Option Nat,
    ls.foldl
      (fun acc line =>
        if pyLstripWS line ≠ [] then
          match acc with
          | none => some (line.length - (pyLstripWS line).length)
          | some m => some (min m (line.length - (pyLstripWS line).length))
        else acc)
      acc =
    minOpt acc ((ls.filterMap fun line =>
      if pyLstripWS line = [] then none
      else some (line.takeWhile pyIsSpace).length).min?) := by
  induction ls with
  | nil =>
    intro acc
    cases acc <;> rfl
  | cons l t ih =>
    intro acc
    rw [List.foldl_cons, List.filterMap_cons]
    by_cases hb : pyLstripWS l = []
    · rw [if_neg (by simp [hb]), if_pos hb]
      exact ih acc
    · rw [if_pos (by simp [hb]), if_neg hb, ih]
      rw [List.min?_cons]
      rcases acc with - | x <;>
        rcases hm : ((t.filterMap fun line =>
          if pyLstripWS line = [] then none
          else some (line.takeWhile pyIsSpace).length).min?) with - | y <;>
        simp only [hm, minOpt, Option.elim, indent_measure_eq]
      all_goals first
        | rfl
        | exact congrArg some (Nat.min_assoc _ _ _)

/-- The two indentation computations agree. -/
theorem fdIndent_eq_spec (lines : List (List Char)) :
    fdIndent lines = fdIndentSpec lines := by
  unfold fdIndent fdIndentSpec
  rw [fdIndent_fold]
  rfl

/-- Claim C9: `fix_docstring` implements exactly the re-indentation the
specification describes: leading tabs are expanded on every line (tab
stops at 8), the minimum indentation is taken over all lines except the
first with blank lines excluded from the minimum, exactly that many
characters are stripped from each subsequent line, the first line is
independently fully trimmed and never re-indented, and each non-blank
retained subsequent line (and the final line even if blank) is re-prefixed
with the target indentation. -/
theorem fix_docstring_correct (docstring pfx : List Char) :
    fix_docstring docstring pfx = fix_docstring_spec docstring pfx := by
  unfold fix_docstring fix_docstring_spec
  rw [fdIndent_eq_spec]

/-- The loop of `list_comments` refines the claim's classification: the
loop state `index = ignored` holds exactly when every line seen so far was
an ignored continuation line. -/
theorem listCommentsA_spec (em : Bool) (lines : List (List Char)) :
    ∀ (index consumed nlines ignored : Nat) (allPrior : Bool),
      ignored ≤ index → (allPrior = true ↔ index = ignored) →
      (listCommentsA em lines index consumed nlines ignored).map
          (fun c => (c.ctype, c.value)) =
        list_comments_spec em allPrior lines := by
  induction lines with
  | nil =>
    intro index consumed nlines ignored allPrior hle hiff
    rfl
  | cons line rest ih =>
    intro index consumed nlines ignored allPrior hle hiff
    unfold listCommentsA list_comments_spec
    by_cases hc : (pyLstripWS line).head? = some hashC
    · rw [if_neg (not_not_intro hc), if_pos hc, List.map_cons]
      have hcond : (index = ignored ∧ ¬em = true) ↔
          (allPrior = true ∧ ¬em = true) := by
        rw [hiff]
      rw [if_congr hcond rfl rfl]
      refine congrArg _ ?_
      exact ih (index + 1) (consumed + line.length + 1) 0 ignored false
        (by omega)
        (by
          constructor
          · intro hx
            exact absurd hx (by simp)
          · intro hx
            exact absurd hx (by omega))
    · rw [if_pos hc, if_neg hc]
      by_cases hbs : (pyLstripWS line).getLast? = some bsC
      · rw [if_pos hbs]
        have hil : ignoredLine line = true := by
          unfold ignoredLine
          simp [hc, hbs]
        rw [hil, Bool.and_true]
        exact ih (index + 1) (consumed + line.length + 1)
          (if pyLstripWS line = [] then nlines + 1 else nlines) (ignored + 1)
          allPrior (by omega) (by rw [hiff]; omega)
      · rw [if_neg hbs]
        have hil : ignoredLine line = false := by
          unfold ignoredLine
          simp [hbs]
        rw [hil, Bool.and_false]
        exact ih (index + 1) (consumed + line.length + 1)
          (if pyLstripWS line = [] then nlines + 1 else nlines) ignored
          false (by omega)
          (by
            constructor
            · intro hx
              exact absurd hx (by simp)
            · intro hx
              exact absurd hx (by omega))

/-- A character of a line produced by `splitCRLF` is a character of the
split string. -/
theorem splitCRLF_subset : ∀ (pfx : List Char), ∀ line ∈ splitCRLF pfx,
    ∀ c ∈ line, c ∈ pfx := by
  intro pfx
  induction pfx using splitCRLF.induct with
  | case1 =>
    intro line hl c hc
    simp only [splitCRLF, List.mem_singleton] at hl
    subst hl
    simp at hc
  | case2 =>
    intro line hl c hc
    simp only [splitCRLF] at hl
    simp only [if_true] at hl
    simp only [List.mem_cons, List.mem_singleton] at hl
    rcases hl with rfl | rfl | h
    · simp at hc
    · simp at hc
    · simp at h
  | case3 ch hn =>
    intro line hl c hc
    simp only [splitCRLF] at hl
    rw [if_neg hn] at hl
    simp only [List.mem_singleton] at hl
    subst hl
    simpa using hc
  | case4 ch d t h1 ih =>
    intro line hl c hc
    simp only [splitCRLF] at hl
    rw [if_pos h1] at hl
    rcases List.mem_cons.mp hl with rfl | hl
    · simp at hc
    · exact List.mem_cons_of_mem _ (List.mem_cons_of_mem _ (ih line hl c hc))
  | case5 d t h1 ih =>
    intro line hl c hc
    simp only [splitCRLF] at hl
    rw [if_neg h1] at hl
    simp only [if_true] at hl
    rcases List.mem_cons.mp hl with rfl | hl
    · simp at hc
    · exact List.mem_cons_of_mem _ (ih line hl c hc)
  | case6 ch d t h1 h2 hnil ih =>
    intro line hl c hc
    simp only [splitCRLF] at hl
    rw [if_neg h1, if_neg h2, hnil] at hl
    simp only [List.mem_singleton] at hl
    subst hl
    obtain rfl := List.mem_singleton.mp hc
    exact List.mem_cons_self _ _
  | case7 ch d t h1 h2 h0 r hsp ih =>
    intro line hl c hc
    simp only [splitCRLF] at hl
    rw [if_neg h1, if_neg h2, hsp] at hl
    rcases List.mem_cons.mp hl with rfl | hl
    · rcases List.mem_cons.mp hc with rfl | hc
      · exact List.mem_cons_self _ _
      · exact List.mem_cons_of_mem _ (ih _ (hsp ▸ List.mem_cons_self h0 r) c hc)
    · exact List.mem_cons_of_mem _ (ih line (hsp ▸ List.mem_cons_of_mem h0 hl) c hc)

/-- When the prefix holds no hash character, the claim's classification
also produces no comments. -/
theorem list_comments_spec_no_hash (em : Bool) :
    ∀ (lines : List (List Char)) (b : Bool),
      (∀ line ∈ lines, hashC ∉ line) → list_comments_spec em b lines = [] := by
  intro lines
  induction lines with
  | nil => intro b h; rfl
  | cons line rest ih =>
    intro b h
    unfold list_comments_spec
    rw [if_neg ?_]
    · exact ih _ fun l hl => h l (List.mem_cons_of_mem _ hl)
    · intro hc
      rcases hdw : pyLstripWS line with - | ⟨a, t⟩
      · rw [hdw] at hc
        exact Option.noConfusion hc
      · rw [hdw] at hc
        obtain rfl : a = hashC := Option.some.inj hc
        refine h line (List.mem_cons_self _ _) ?_
        have hsl : List.Sublist (pyLstripWS line) line := List.dropWhile_sublist _
        exact List.Sublist.subset hsl (hdw ▸ List.mem_cons_self hashC t)

/-- Claim C7: `list_comments` classifies a comment line as inline
(`token.COMMENT`) exactly when it is the very first non-ignored line of the
prefix and the leaf is not the end-of-input marker, and as standalone
(`STANDALONE_COMMENT`) otherwise, where a non-comment line ending in a
line-continuation backslash counts as ignored; in particular a comment
following only an escaped newline is still classified inline. -/
theorem list_comments_classification :
    (∀ pfx em, (list_comments pfx em).map (fun c => (c.ctype, c.value)) =
      list_comments_spec em true (splitCRLF pfx)) ∧
    (list_comments ("y = 3 \\" ++ "\n# c").toList false).map
        (fun c => (c.ctype, c.value)) =
      [(token_COMMENT, "# c".toList)] := by
  constructor
  · intro pfx em
    unfold list_comments
    by_cases h : pfx = [] ∨ ¬pfx.contains hashC
    · rw [if_pos h]
      refine (list_comments_spec_no_hash em _ true fun line hl hmem => ?_).symm
      have hp : hashC ∈ pfx := splitCRLF_subset pfx line hl hashC hmem
      rcases h with rfl | h
      · simp at hp
      · exact h (List.elem_iff.mpr hp)
    · rw [if_neg h]
      exact listCommentsA_spec em (splitCRLF pfx) 0 0 0 0 true (le_refl 0)
        (by constructor <;> intro <;> rfl)
  · decide

/-- A quote character is not a legal string prefix character. -/
theorem quote_not_prefix_char (c : Char) (h : isQuoteC c = true) :
    STRING_PREFIX_CHARS.contains c = false := by
  unfold isQuoteC at h
  rcases (by simpa using h : c = sqC ∨ c = dqC) with rfl | rfl <;> decide

/-- A legal string prefix character is not a quote. -/
theorem prefix_char_not_quote (c : Char) (h : STRING_PREFIX_CHARS.contains c = true) :
    isQuoteC c = false := by
  have hm : c ∈ STRING_PREFIX_CHARS := List.elem_iff.mp h
  fin_cases hm <;> decide

/-- Taking up to the first quote is the no-quote `takeWhile`. -/
theorem take_firstQuoteIdx (s : List Char) :
    s.take (firstQuoteIdx s) = s.takeWhile fun c => !isQuoteC c := by
  unfold firstQuoteIdx
  exact (List.prefix_iff_eq_take.mp (List.takeWhile_prefix _)).symm

/-- Dropping the length of the `takeWhile` run is `dropWhile`. -/
theorem drop_length_takeWhile (q : Char → Bool) :
    ∀ l : List Char, l.drop (l.takeWhile q).length = l.dropWhile q := by
  intro l
  induction l with
  | nil => rfl
  | cons c t ih =>
    by_cases hq : q c = true
    · rw [List.takeWhile_cons_of_pos hq, List.dropWhile_cons_of_pos hq,
        List.length_cons, List.drop_succ_cons]
      exact ih
    · rw [List.takeWhile_cons_of_neg hq, List.dropWhile_cons_of_neg hq]
      rfl

/-- Dropping up to the first quote is the no-quote `dropWhile`. -/
theorem drop_firstQuoteIdx (s : List Char) :
    s.drop (firstQuoteIdx s) = s.dropWhile fun c => !isQuoteC c := by
  unfold firstQuoteIdx
  exact drop_length_takeWhile _ s

/-- The head of `dropWhile q` fails `q`. -/
theorem head?_dropWhile_neg (q : Char → Bool) :
    ∀ (l : List Char) (x : Char), (l.dropWhile q).head? = some x → q x = false := by
  intro l
  induction l with
  | nil =>
    intro x hx
    exact Option.noConfusion hx
  | cons c t ih =>
    intro x hx
    by_cases hq : q c = true
    · rw [List.dropWhile_cons_of_pos hq] at hx
      exact ih x hx
    · rw [List.dropWhile_cons_of_neg hq] at hx
      obtain rfl : c = x := Option.some.inj hx
      exact Bool.eq_false_iff.mpr hq

/-- Two `dropWhile`s agree when the second's run satisfies the first's
predicate and the first survivor fails it. -/
theorem dropWhile_congr_of (p q : Char → Bool) :
    ∀ l : List Char, (l.takeWhile q).all p = true →
      (∀ x, (l.dropWhile q).head? = some x → p x = false) →
      l.dropWhile p = l.dropWhile q := by
  intro l
  induction l with
  | nil => intro _ _; rfl
  | cons c t ih =>
    intro h1 h2
    by_cases hq : q c = true
    · rw [List.takeWhile_cons_of_pos hq, List.all_cons, Bool.and_eq_true] at h1
      rw [List.dropWhile_cons_of_pos hq] at h2 ⊢
      rw [List.dropWhile_cons_of_pos h1.1]
      exact ih h1.2 h2
    · rw [List.dropWhile_cons_of_neg hq] at h2 ⊢
      have hp : p c = false := h2 c rfl
      rw [List.dropWhile_cons_of_neg (by simp [hp])]

/-- Under the leaf-string precondition, stripping the legal prefix
characters stops exactly at the first quote. -/
theorem pyLstripSet_eq_drop (s : List Char) (h : is_leaf_string s = true) :
    pyLstripSet STRING_PREFIX_CHARS s = s.drop (firstQuoteIdx s) := by
  have hall : (s.takeWhile fun c => !isQuoteC c).all
      (fun c => STRING_PREFIX_CHARS.contains c) = true := by
    simp only [is_leaf_string, Bool.and_eq_true] at h
    have := h.2
    rwa [take_firstQuoteIdx] at this
  rw [drop_firstQuoteIdx]
  unfold pyLstripSet
  refine dropWhile_congr_of _ _ s hall fun x hx => ?_
  have hqx : isQuoteC x = true := by
    have := head?_dropWhile_neg _ s x hx
    simpa using this
  exact quote_not_prefix_char x hqx

/-- Under the precondition, the string has a character at the first quote
position and it is a quote. -/
theorem drop_firstQuote_head (s : List Char) (h : is_leaf_string s = true) :
    ∃ q0, (s.drop (firstQuoteIdx s)).head? = some q0 ∧ isQuoteC q0 = true := by
  have hlen : firstQuoteIdx s < s.length := by
    simp only [is_leaf_string, Bool.and_eq_true, decide_eq_true_eq] at h
    omega
  rcases hd : (s.drop (firstQuoteIdx s)).head? with - | q0
  · rw [List.head?_eq_none_iff] at hd
    have := congrArg List.length hd
    rw [List.length_drop] at this
    simp at this
    omega
  · refine ⟨q0, rfl, ?_⟩
    rw [drop_firstQuoteIdx] at hd
    have := head?_dropWhile_neg _ s q0 hd
    simpa using this

/-- Sufficient condition for `findSub` to find an occurrence at `i`. -/
theorem findSub_eq_some (pat : List Char) :
    ∀ (s : List Char) (i : Nat), pat.isPrefixOf (s.drop i) = true →
      (∀ j, j < i → pat.isPrefixOf (s.drop j) = false) →
      findSub pat s = some i := by
  intro s
  induction s with
  | nil =>
    intro i h1 h2
    have hpat : pat = [] := by
      rw [List.drop_nil] at h1
      exact List.prefix_nil.mp (List.isPrefixOf_iff_prefix.mp h1)
    cases i with
    | zero =>
      unfold findSub
      rw [if_pos hpat]
    | succ n =>
      have := h2 0 (Nat.succ_pos n)
      rw [List.drop_nil, hpat] at this
      exact absurd this (by simp)
  | cons c t ih =>
    intro i h1 h2
    cases i with
    | zero =>
      unfold findSub
      rw [List.drop_zero] at h1
      rw [if_pos h1]
    | succ n =>
      unfold findSub
      rw [if_neg ?_, ih n (by simpa using h1)
        fun j hj => by simpa using h2 (j + 1) (by omega)]
      · rfl
      · have := h2 0 (Nat.succ_pos n)
        simp only [List.drop_zero] at this
        simp [this]

/-- No occurrence of a quote-headed pattern starts before the first quote
of a leaf string. -/
theorem no_quote_before (s : List Char) (hls : is_leaf_string s = true)
    (j : Nat) (hj : j < firstQuoteIdx s) (qh : Char) (hq : isQuoteC qh = true)
    (pr : List Char) : (qh :: pr).isPrefixOf (s.drop j) = false := by
  by_contra hcon
  have hcon' : (qh :: pr).isPrefixOf (s.drop j) = true := by
    revert hcon
    cases (qh :: pr).isPrefixOf (s.drop j) <;> simp
  obtain ⟨t2, ht2⟩ := List.isPrefixOf_iff_prefix.mp hcon'
  have hhead : (s.drop j).head? = some qh := by
    rw [← ht2]
    rfl
  rw [List.head?_drop] at hhead
  have hmem : qh ∈ s.take (firstQuoteIdx s) := by
    have hg : (s.take (firstQuoteIdx s))[j]? = some qh := by
      rw [List.getElem?_take, if_pos hj]
      exact hhead
    exact List.mem_iff_getElem?.mpr ⟨j, hg⟩
  simp only [is_leaf_string, Bool.and_eq_true] at hls
  have := List.all_eq_true.mp hls.2 qh hmem
  rw [quote_not_prefix_char qh hq] at this
  exact Bool.noConfusion this

/-- The possible quote pairs, with the original quote occurring at the head
of the prefix-stripped value. -/
theorem nsqQuotes_cases (V : List Char) (q0 : Char) (hq0 : V.head? = some q0)
    (hq : isQuoteC q0 = true) (hnd : V.take 3 ≠ dq3) :
    (nsqQuotes V = (sq3, dq3) ∧ sq3.isPrefixOf V = true) ∨
    (nsqQuotes V = ([dqC], [sqC]) ∧ [dqC].isPrefixOf V = true) ∨
    (nsqQuotes V = ([sqC], [dqC]) ∧ [sqC].isPrefixOf V = true) := by
  have htake1 : V.take 1 = [q0] := by
    cases V with
    | nil => exact Option.noConfusion hq0
    | cons c t =>
      obtain rfl : c = q0 := Option.some.inj hq0
      rfl
  unfold nsqQuotes
  by_cases h1 : V.take 3 = sq3
  · refine Or.inl ⟨by rw [if_pos h1], ?_⟩
    rw [List.isPrefixOf_iff_prefix, List.prefix_iff_eq_take]
    exact h1.symm
  · rw [if_neg h1]
    by_cases h2 : V.take 1 = [dqC]
    · refine Or.inr (Or.inl ⟨by rw [if_pos h2], ?_⟩)
      rw [List.isPrefixOf_iff_prefix, List.prefix_iff_eq_take]
      exact h2.symm
    · refine Or.inr (Or.inr ⟨by rw [if_neg h2], ?_⟩)
      have hq0s : q0 = sqC := by
        unfold isQuoteC at hq
        rcases (by simpa using hq : q0 = sqC ∨ q0 = dqC) with rfl | rfl
        · rfl
        · exact absurd htake1 h2
      rw [List.isPrefixOf_iff_prefix, List.prefix_iff_eq_take]
      rw [hq0s] at htake1
      exact htake1.symm

/-- Inversion of `nsqAfterFind`: the produced prefix, quotes, and the two
possible shapes of the current `s`. -/
theorem nsqAfterFind_pieces (QO QN : List Char) (fq : Nat)
    (s pfx oq nq body nb sc : List Char)
    (h : nsqAfterFind QO QN fq s = some (pfx, oq, nq, body, nb, sc)) :
    pfx = s.take fq ∧ oq = QO ∧ nq = QN ∧
      (sc = s ∨ ∃ b, sc = s.take fq ++ QO ++ b ++ QO) := by
  unfold nsqAfterFind at h
  by_cases h1 : (s.take fq).any (fun c => c.toLower = 'r') = true
  · rw [if_pos h1] at h
    by_cases h2 : hasUnesc QN (nsqBody QO fq s) = true
    · rw [if_pos h2] at h
      exact Option.noConfusion h
    · rw [if_neg h2] at h
      simp only [Option.some.injEq, Prod.mk.injEq] at h
      obtain ⟨rfl, rfl, rfl, rfl, rfl, rfl⟩ := h
      exact ⟨rfl, rfl, rfl, Or.inl rfl⟩
  · rw [if_neg h1] at h
    simp only [Option.some.injEq, Prod.mk.injEq] at h
    obtain ⟨rfl, rfl, rfl, rfl, rfl, hsc⟩ := h
    refine ⟨rfl, rfl, rfl, ?_⟩
    by_cases h3 : nsqBody QO fq s ≠ sub_twice (subEsc QN) (nsqBody QO fq s)
    · rw [if_pos h3] at hsc
      exact Or.inr ⟨_, hsc.symm⟩
    · rw [if_neg h3] at hsc
      exact Or.inl hsc.symm

/-- Inversion of `nsqSteps` under the leaf-string precondition: the prefix
piece is the leaf's prefix, the quotes are one of the three legal pairs,
and the current `s` is either the input or a requote of the body between
original-quote delimiters. -/
theorem nsqSteps_pieces (s pfx oq nq body nb sc : List Char)
    (hls : is_leaf_string s = true)
    (h : nsqSteps s = some (pfx, oq, nq, body, nb, sc)) :
    pfx = leafPfxOf s ∧
    ((oq = sq3 ∧ nq = dq3) ∨ (oq = [dqC] ∧ nq = [sqC]) ∨
      (oq = [sqC] ∧ nq = [dqC])) ∧
    (sc = s ∨ ∃ b, sc = pfx ++ oq ++ b ++ oq) := by
  obtain ⟨q0, hq0, hq0q⟩ := drop_firstQuote_head s hls
  have hval := pyLstripSet_eq_drop s hls
  unfold nsqSteps at h
  rw [hval] at h
  by_cases hnd : (s.drop (firstQuoteIdx s)).take 3 = dq3
  · rw [if_pos hnd] at h
    exact Option.noConfusion h
  rw [if_neg hnd] at h
  have hfind : ∀ (QO : List Char) (qh : Char) (pr : List Char), QO = qh :: pr →
      isQuoteC qh = true → QO.isPrefixOf (s.drop (firstQuoteIdx s)) = true →
      findSub QO s = some (firstQuoteIdx s) := by
    intro QO qh pr hQO hqh hpr
    refine findSub_eq_some QO s (firstQuoteIdx s) hpr fun j hj => ?_
    rw [hQO]
    exact no_quote_before s hls j hj qh hqh pr
  rcases nsqQuotes_cases _ q0 hq0 hq0q hnd with ⟨hq, hpfx⟩ | ⟨hq, hpfx⟩ | ⟨hq, hpfx⟩
  · simp only [hq] at h
    rw [hfind sq3 sqC [sqC, sqC] rfl (by decide) hpfx] at h
    have h' : nsqAfterFind sq3 dq3 (firstQuoteIdx s) s =
        some (pfx, oq, nq, body, nb, sc) := h
    obtain ⟨hp, ho, hn, hsc⟩ := nsqAfterFind_pieces _ _ _ _ _ _ _ _ _ _ h'
    subst hp ho hn
    exact ⟨rfl, Or.inl ⟨rfl, rfl⟩, hsc⟩
  · simp only [hq] at h
    rw [hfind [dqC] dqC [] rfl (by decide) hpfx] at h
    have h' : nsqAfterFind [dqC] [sqC] (firstQuoteIdx s) s =
        some (pfx, oq, nq, body, nb, sc) := h
    obtain ⟨hp, ho, hn, hsc⟩ := nsqAfterFind_pieces _ _ _ _ _ _ _ _ _ _ h'
    subst hp ho hn
    exact ⟨rfl, Or.inr (Or.inl ⟨rfl, rfl⟩), hsc⟩
  · simp only [hq] at h
    rw [hfind [sqC] sqC [] rfl (by decide) hpfx] at h
    have h' : nsqAfterFind [sqC] [dqC] (firstQuoteIdx s) s =
        some (pfx, oq, nq, body, nb, sc) := h
    obtain ⟨hp, ho, hn, hsc⟩ := nsqAfterFind_pieces _ _ _ _ _ _ _ _ _ _ h'
    subst hp ho hn
    exact ⟨rfl, Or.inr (Or.inr ⟨rfl, rfl⟩), hsc⟩

/-- `takeWhile` passes over a first part that wholly satisfies the
predicate. -/
theorem takeWhile_append_all (p : Char → Bool) :
    ∀ l1 l2 : List Char, l1.all p = true →
      (l1 ++ l2).takeWhile p = l1 ++ l2.takeWhile p := by
  intro l1 l2
  induction l1 with
  | nil => intro _; rfl
  | cons c t ih =>
    intro h
    rw [List.all_cons, Bool.and_eq_true] at h
    rw [List.cons_append, List.takeWhile_cons_of_pos h.1, ih h.2, List.cons_append]

/-- A string assembled from legal prefix characters, a quote delimiter, a
body, and the same closing delimiter is a well-formed leaf string with that
prefix. -/
theorem is_leaf_string_concat (pfxL Q b : List Char)
    (hp : pfxL.all (fun c => STRING_PREFIX_CHARS.contains c) = true)
    (hq : Q = [sqC] ∨ Q = [dqC] ∨ Q = sq3 ∨ Q = dq3) :
    is_leaf_string (pfxL ++ Q ++ b ++ Q) = true ∧
    leafPfxOf (pfxL ++ Q ++ b ++ Q) = pfxL := by
  obtain ⟨qh, qt, hQ, hqh⟩ : ∃ qh qt, Q = qh :: qt ∧ isQuoteC qh = true := by
    rcases hq with rfl | rfl | rfl | rfl
    · exact ⟨sqC, [], rfl, by decide⟩
    · exact ⟨dqC, [], rfl, by decide⟩
    · exact ⟨sqC, [sqC, sqC], rfl, by decide⟩
    · exact ⟨dqC, [dqC, dqC], rfl, by decide⟩
  have hnq : ∀ x ∈ pfxL, (fun c => !isQuoteC c) x = true := by
    rw [List.all_eq_true] at hp
    intro x hx
    simp [prefix_char_not_quote x (hp x hx)]
  have hneg : ¬((fun c => !isQuoteC c) qh = true) := by
    simp [hqh]
  have hfqi : firstQuoteIdx (pfxL ++ Q ++ b ++ Q) = pfxL.length := by
    unfold firstQuoteIdx
    rw [List.append_assoc, List.append_assoc,
      takeWhile_append_all _ pfxL _ (List.all_eq_true.mpr hnq),
      hQ, List.cons_append,
      List.takeWhile_cons_of_neg (p := fun c => !isQuoteC c) hneg,
      List.append_nil]
  have hlast : (pfxL ++ Q ++ b ++ Q).getLast? = some qh ∨
      ∃ c, (pfxL ++ Q ++ b ++ Q).getLast? = some c ∧ isQuoteC c = true := by
    refine Or.inr ?_
    rcases hq with rfl | rfl | rfl | rfl
    · exact ⟨sqC, by rw [show (pfxL ++ [sqC] ++ b ++ [sqC]) =
        (pfxL ++ [sqC] ++ b) ++ [sqC] from rfl, List.getLast?_concat], by decide⟩
    · exact ⟨dqC, by rw [show (pfxL ++ [dqC] ++ b ++ [dqC]) =
        (pfxL ++ [dqC] ++ b) ++ [dqC] from rfl, List.getLast?_concat], by decide⟩
    · exact ⟨sqC, by rw [show (pfxL ++ sq3 ++ b ++ sq3) =
        ((pfxL ++ sq3 ++ b ++ [sqC, sqC]) ++ [sqC]) from by
          simp [sq3, List.append_assoc], List.getLast?_concat], by decide⟩
    · exact ⟨dqC, by rw [show (pfxL ++ dq3 ++ b ++ dq3) =
        ((pfxL ++ dq3 ++ b ++ [dqC, dqC]) ++ [dqC]) from by
          simp [dq3, List.append_assoc], List.getLast?_concat], by decide⟩
  have hQlen : 1 ≤ Q.length := by
    rcases hq with rfl | rfl | rfl | rfl <;> decide
  have htk : (pfxL ++ Q ++ b ++ Q).take pfxL.length = pfxL := by
    rw [List.append_assoc, List.append_assoc]
    exact List.take_left pfxL _
  constructor
  · unfold is_leaf_string
    rw [hfqi, htk]
    simp only [Bool.and_eq_true]
    refine ⟨⟨?_, ?_⟩, hp⟩
    · simp only [decide_eq_true_eq, List.length_append]
      have : 1 ≤ Q.length := hQlen
      omega
    · rcases hlast with hl | ⟨c, hl, hc⟩
      · rw [hl]
        exact hqh
      · rw [hl]
        exact hc
  · unfold leafPfxOf
    rw [hfqi, htk]

/-- The final step returns either the current `s` or the requoted
rewrite. -/
theorem nsqFinish_cases (pfx oq nq body nb sc : List Char) :
    nsqFinish pfx oq nq body nb sc = sc ∨
    nsqFinish pfx oq nq body nb sc =
      pfx ++ nq ++ tripleQuoteEdge nq nb ++ nq := by
  simp only [nsqFinish]
  split_ifs <;> simp

/-- Appending a backslash increments the trailing backslash count. -/
theorem trailingEscCount_concat_bs (l : List Char) :
    trailingEscCount (l ++ [bsC]) = trailingEscCount l + 1 := by
  unfold trailingEscCount
  rw [List.reverse_append, List.reverse_singleton, List.singleton_append,
    List.takeWhile_cons_of_pos (by simp), List.length_cons]

/-- Claim C10: under the leaf-string precondition, the result of
`normalize_string_quotes` is again a well-formed leaf string with the same
prefix and matching quote delimiters; and when converting to the
triple-double-quoted form whose new body ends with an unescaped double
quote (an even number of backslashes before it), the edge case escapes that
final quote, so the body ends with an escaped quote and the closing
three-character delimiter stays valid. -/
theorem normalize_string_quotes_wellformed (s : List Char)
    (h : is_leaf_string s = true) :
    is_leaf_string (normalize_string_quotes s) = true ∧
    leafPfxOf (normalize_string_quotes s) = leafPfxOf s ∧
    (∀ nb : List Char, nb.getLast? = some dqC →
      trailingEscCount nb.dropLast % 2 = 0 →
      tripleQuoteEdge dq3 nb = nb.dropLast ++ [bsC, dqC] ∧
      (tripleQuoteEdge dq3 nb).getLast? = some dqC ∧
      trailingEscCount (tripleQuoteEdge dq3 nb).dropLast % 2 = 1) := by
  have hedge : ∀ nb : List Char, nb.getLast? = some dqC →
      trailingEscCount nb.dropLast % 2 = 0 →
      tripleQuoteEdge dq3 nb = nb.dropLast ++ [bsC, dqC] ∧
      (tripleQuoteEdge dq3 nb).getLast? = some dqC ∧
      trailingEscCount (tripleQuoteEdge dq3 nb).dropLast % 2 = 1 := by
    intro nb h1 h2
    have he : tripleQuoteEdge dq3 nb = nb.dropLast ++ [bsC, dqC] := by
      unfold tripleQuoteEdge
      rw [if_pos ⟨rfl, h1⟩]
    have hassoc : nb.dropLast ++ [bsC, dqC] = (nb.dropLast ++ [bsC]) ++ [dqC] := by
      rw [List.append_assoc]
      rfl
    refine ⟨he, ?_, ?_⟩
    · rw [he, hassoc, List.getLast?_concat]
    · rw [he, hassoc, List.dropLast_concat, trailingEscCount_concat_bs]
      omega
  have hpall : (leafPfxOf s).all (fun c => STRING_PREFIX_CHARS.contains c) = true := by
    simp only [is_leaf_string, Bool.and_eq_true] at h
    exact h.2
  rcases hst : nsqSteps s with - | ⟨pfx, oq, nq, body, nb, sc⟩
  · have hr : normalize_string_quotes s = s := by
      unfold normalize_string_quotes
      rw [hst]
    rw [hr]
    exact ⟨h, rfl, hedge⟩
  · have hr := normalize_string_quotes_eq_finish s pfx oq nq body nb sc hst
    obtain ⟨hpfx, hquotes, hsc⟩ := nsqSteps_pieces s pfx oq nq body nb sc h hst
    have hoqshape : oq = [sqC] ∨ oq = [dqC] ∨ oq = sq3 ∨ oq = dq3 := by
      rcases hquotes with ⟨h1, -⟩ | ⟨h1, -⟩ | ⟨h1, -⟩
      · exact Or.inr (Or.inr (Or.inl h1))
      · exact Or.inr (Or.inl h1)
      · exact Or.inl h1
    have hnqshape : nq = [sqC] ∨ nq = [dqC] ∨ nq = sq3 ∨ nq = dq3 := by
      rcases hquotes with ⟨-, h1⟩ | ⟨-, h1⟩ | ⟨-, h1⟩
      · exact Or.inr (Or.inr (Or.inr h1))
      · exact Or.inl h1
      · exact Or.inr (Or.inl h1)
    have hsc_ok : is_leaf_string sc = true ∧ leafPfxOf sc = leafPfxOf s := by
      rcases hsc with rfl | ⟨b, rfl⟩
      · exact ⟨h, rfl⟩
      · have := is_leaf_string_concat (leafPfxOf s) oq b hpall hoqshape
        rw [hpfx]
        exact this
    rcases nsqFinish_cases pfx oq nq body nb sc with hf | hf
    · rw [hr, hf]
      exact ⟨hsc_ok.1, hsc_ok.2, hedge⟩
    · rw [hr, hf, hpfx]
      have := is_leaf_string_concat (leafPfxOf s) nq (tripleQuoteEdge nq nb)
        hpall hnqshape
      exact ⟨this.1, this.2, hedge⟩

/-- Witness for C10 on the literal `'a'`. -/
theorem normalize_string_quotes_wellformed_w :
    is_leaf_string [sqC, 'a', sqC] = true ∧
    is_leaf_string (normalize_string_quotes [sqC, 'a', sqC]) = true ∧
    leafPfxOf (normalize_string_quotes [sqC, 'a', sqC]) =
      leafPfxOf [sqC, 'a', sqC] := by
  have h := normalize_string_quotes_wellformed [sqC, 'a', sqC] (by decide)
  exact ⟨by decide, h.1, h.2.1⟩

/-- `str.replace` never lengthens the string when the replacement is
empty. -/
theorem length_pyReplaceA_le (old : List Char) :
    ∀ (fuel : Nat) (s : List Char), (pyReplaceA old [] fuel s).length ≤ s.length := by
  intro fuel
  induction fuel with
  | zero => intro s; rw [pyReplaceA]
  | succ f ih =>
    intro s
    match s with
    | [] =>
      rw [pyReplaceA]
      omega
    | c :: t =>
      rw [pyReplaceA]
      split
      · next hcond =>
        have h1 := ih ((c :: t).drop old.length)
        have h2 : ((c :: t).drop old.length).length ≤ (c :: t).length := by
          rw [List.length_drop]; omega
        simpa using Nat.le_trans h1 h2
      · next =>
        simp only [List.length_cons]
        exact Nat.succ_le_succ (ih t)

/-- A found occurrence fits inside the string. -/
theorem findSub_bound (pat : List Char) (hne : pat ≠ []) :
    ∀ (s : List Char) (k : Nat), findSub pat s = some k →
      k + pat.length ≤ s.length := by
  intro s
  induction s with
  | nil =>
    intro k hk
    rw [findSub, if_neg hne] at hk
    cases hk
  | cons c t ih =>
    intro k hk
    rw [findSub] at hk
    split at hk
    · next hpre =>
      obtain rfl : (0 : Nat) = k := by injection hk
      simpa using List.IsPrefix.length_le (List.isPrefixOf_iff_prefix.mp hpre)
    · next =>
      rcases Option.map_eq_some'.mp hk with ⟨k0, hk0, rfl⟩
      have := ih k0 hk0
      simp only [List.length_cons]
      omega

/-- With enough fuel, replacing an occurring pattern by the empty string
shrinks the string by at least the pattern's length. -/
theorem length_pyReplaceA_lt (old : List Char) (hne : old ≠ []) :
    ∀ (fuel : Nat) (s : List Char) (k : Nat), findSub old s = some k →
      k + 1 ≤ fuel → (pyReplaceA old [] fuel s).length + old.length ≤ s.length := by
  intro fuel
  induction fuel with
  | zero => intro s k _ hf; omega
  | succ f ih =>
    intro s k hfind hf
    match s with
    | [] =>
      rw [findSub, if_neg hne] at hfind
      cases hfind
    | c :: t =>
      rw [findSub] at hfind
      rw [pyReplaceA]
      split
      · next hcond =>
        have h1 := length_pyReplaceA_le old f ((c :: t).drop old.length)
        have h2 := List.IsPrefix.length_le (List.isPrefixOf_iff_prefix.mp hcond.2)
        rw [List.nil_append]
        have h3 : ((c :: t).drop old.length).length = (c :: t).length - old.length := by
          rw [List.length_drop]
        omega
      · next hcond =>
        split at hfind
        · next hpre => exact absurd ⟨hne, hpre⟩ hcond
        · next =>
          rcases Option.map_eq_some'.mp hfind with ⟨k0, hk0, rfl⟩
          have := ih t k0 hk0 (by omega)
          simp only [List.length_cons]
          omega

/-- Replacing an occurring pattern by the empty string shrinks the string
by at least the pattern's length. -/
theorem pyReplace_shrink (old P : List Char) (hne : old ≠ [])
    (hc : containsSub P old = true) :
    (pyReplace old [] P).length + old.length ≤ P.length := by
  rw [containsSub] at hc
  rcases Option.isSome_iff_exists.mp hc with ⟨k, hk⟩
  have hb := findSub_bound old hne P k hk
  have holen : 1 ≤ old.length := by
    cases old with
    | nil => exact absurd rfl hne
    | cons a b => simp
  rw [pyReplace]
  exact length_pyReplaceA_lt old hne P.length P k hk (by omega)

/-- `str.rstrip` keeps a prefix of the string. -/
theorem pyRstripWS_append (l : List Char) : ∃ t, pyRstripWS l ++ t = l := by
  refine ⟨(l.reverse.takeWhile pyIsSpace).reverse, ?_⟩
  rw [pyRstripWS, ← List.reverse_append, List.takeWhile_append_dropWhile,
    List.reverse_reverse]

/-- The no-break-space normalization step keeps the length. -/
theorem mcNbsp_length (x : List Char) : (mcNbsp x).length = x.length := by
  rw [mcNbsp]
  split
  · next h =>
    cases x with
    | nil => exact absurd rfl h.1
    | cons a b => simp
  · rfl

/-- The space-insertion step adds at most one character. -/
theorem mcSpace_length (x : List Char) : (mcSpace x).length ≤ x.length + 1 := by
  rw [mcSpace]
  split
  · simp
  · omega

/-- For a line that already starts with a hash sign, `make_comment` grows
the line by at most one character. -/
theorem make_comment_length (l : List Char) (hh : l.head? = some hashC) :
    (make_comment l).length ≤ l.length + 1 := by
  obtain ⟨t, ht⟩ := pyRstripWS_append l
  simp only [make_comment]
  split
  · next => simp
  · next hne =>
    have hlen : (pyRstripWS l).length ≤ l.length := by
      have := congrArg List.length ht
      simp only [List.length_append] at this
      omega
    have hhead : (pyRstripWS l).head? = some hashC := by
      cases hrw : pyRstripWS l with
      | nil => exact absurd hrw hne
      | cons a b =>
        rw [hrw] at ht
        rw [← ht] at hh
        simpa using hh
    have hstrip : (mcStrip (pyRstripWS l)).length + 1 = (pyRstripWS l).length := by
      rw [mcStrip, if_pos hhead]
      cases hrw : pyRstripWS l with
      | nil => exact absurd hrw hne
      | cons a b => simp
    have := mcSpace_length (mcNbsp (mcStrip (pyRstripWS l)))
    have := mcNbsp_length (mcStrip (pyRstripWS l))
    simp only [List.length_cons]
    omega

/-- Every `FMT_PASS` marker value is at least nine characters long. -/
theorem FMT_PASS_len (v : List Char) (hv : v ∈ FMT_PASS) : 9 ≤ v.length := by
  fin_cases hv <;> decide

/-- Every `FMT_SKIP` marker value is at least ten characters long and
nonempty. -/
theorem FMT_SKIP_len (v : List Char) (hv : v ∈ FMT_SKIP) :
    10 ≤ v.length ∧ v ≠ [] := by
  fin_cases hv <;> exact ⟨by decide, by decide⟩

/-- The lines produced by `re.split("\r?\n", p)`, each counted with the
one separator character the source loop adds back, cover at most the
original length plus one. -/
theorem splitCRLF_consumed : ∀ p : List Char,
    ((splitCRLF p).map (fun l => l.length + 1)).sum ≤ p.length + 1 := by
  intro p
  induction p using splitCRLF.induct with
  | case1 => simp [splitCRLF]
  | case2 => simp [splitCRLF]
  | case3 ch hn =>
    rw [splitCRLF, if_neg hn]
    simp
  | case4 ch d t h1 ih =>
    rw [splitCRLF, if_pos h1]
    simp only [List.map_cons, List.sum_cons, List.length_nil, List.length_cons]
    omega
  | case5 d t h1 ih =>
    rw [splitCRLF, if_neg h1]
    simp only [if_true]
    simp only [List.map_cons, List.sum_cons, List.length_nil,
      List.length_cons] at ih ⊢
    omega
  | case6 ch d t h1 h2 hnil ih =>
    rw [splitCRLF, if_neg h1, if_neg h2, hnil]
    simp
  | case7 ch d t h1 h2 h0 r hsp ih =>
    rw [splitCRLF, if_neg h1, if_neg h2, hsp]
    rw [hsp] at ih
    simp only [List.map_cons, List.sum_cons, List.length_cons] at *
    omega

/-- The `consumed` field of a comment record. -/
theorem pcMkConsumed (a : Nat) (b : List Char) (n k : Nat) :
    (ProtoComment.mk a b n k).consumed = k := rfl

/-- The `newlines` field of a comment record. -/
theorem pcMkNewlines (a : Nat) (b : List Char) (n k : Nat) :
    (ProtoComment.mk a b n k).newlines = n := rfl

/-- The `value` field of a comment record. -/
theorem pcMkValue (a : Nat) (b : List Char) (n k : Nat) :
    (ProtoComment.mk a b n k).value = b := rfl

/-- Unfolding `listCommentsA` on a comment line. -/
theorem listCommentsA_cons_comment (em : Bool) (line : List Char)
    (rest : List (List Char)) (idx co nl ig : Nat)
    (hh : (pyLstripWS line).head? = some hashC) :
    listCommentsA em (line :: rest) idx co nl ig =
      ProtoComment.mk
        (if idx = ig ∧ ¬em = true then token_COMMENT else STANDALONE_COMMENT)
        (make_comment (pyLstripWS line)) nl (co + line.length + 1) ::
      listCommentsA em rest (idx + 1) (co + line.length + 1) 0 ig := by
  have hlne : pyLstripWS line ≠ [] := by
    intro h0
    rw [h0] at hh
    cases hh
  simp only [listCommentsA]
  rw [if_neg (not_not_intro hh), if_neg hlne]

/-- Unfolding `listCommentsA` on a non-comment line. -/
theorem listCommentsA_cons_plain (em : Bool) (line : List Char)
    (rest : List (List Char)) (idx co nl ig : Nat)
    (hh : (pyLstripWS line).head? ≠ some hashC) :
    listCommentsA em (line :: rest) idx co nl ig =
      listCommentsA em rest (idx + 1) (co + line.length + 1)
        (if pyLstripWS line = [] then nl + 1 else nl)
        (if (pyLstripWS line).getLast? = some bsC then ig + 1 else ig) := by
  simp only [listCommentsA]
  rw [if_pos hh]

/-- Each comment's `consumed` count stays within the initial count plus
the total length of the remaining lines (with their separators). -/
theorem listCommentsA_consumed (em : Bool) :
    ∀ (lines : List (List Char)) (idx co nl ig : Nat) (c : ProtoComment),
      c ∈ listCommentsA em lines idx co nl ig →
      c.consumed ≤ co + (lines.map (fun l => l.length + 1)).sum := by
  intro lines
  induction lines with
  | nil =>
    intro idx co nl ig c hc
    rw [listCommentsA] at hc
    cases hc
  | cons line rest ih =>
    intro idx co nl ig c hc
    simp only [List.map_cons, List.sum_cons]
    by_cases hh : (pyLstripWS line).head? = some hashC
    · rw [listCommentsA_cons_comment em line rest idx co nl ig hh] at hc
      rcases List.mem_cons.mp hc with rfl | hc'
      · rw [pcMkConsumed]
        omega
      · have := ih _ _ _ _ _ hc'
        omega
    · rw [listCommentsA_cons_plain em line rest idx co nl ig hh] at hc
      have := ih _ _ _ _ _ hc
      omega

/-- The key arithmetic invariant of `convert_one_fmt_off_pair`'s comment
loop: when the loop processes a `FMT_PASS` marker comment `c`, the value
`pc` it holds in `previous_consumed` (zero, or the `consumed` count of an
earlier comment) satisfies `pc + c.newlines + 9 ≤ c.consumed`, because
the characters counted by `pc`, the blank marker-preceding lines counted
by `newlines`, and the marker line itself (at least eight characters plus
its separator) occupy disjoint parts of the prefix. -/
theorem listCommentsA_marker_bound (em : Bool) :
    ∀ (lines : List (List Char)) (idx co nl ig pc : Nat), pc + nl ≤ co →
    ∀ (pre : List ProtoComment) (c : ProtoComment) (suf : List ProtoComment),
      listCommentsA em lines idx co nl ig = pre ++ c :: suf →
      c.value ∈ FMT_PASS →
      ∀ pc', (pc' = pc ∨ ∃ d ∈ pre, d.consumed = pc') →
      pc' + c.newlines + 9 ≤ c.consumed := by
  intro lines
  induction lines with
  | nil =>
    intro idx co nl ig pc hinv pre c suf heq hval pc' hpc
    rw [listCommentsA] at heq
    exact absurd heq.symm (by simp)
  | cons line rest ih =>
    intro idx co nl ig pc hinv pre c suf heq hval pc' hpc
    by_cases hhead : (pyLstripWS line).head? = some hashC
    · rw [listCommentsA_cons_comment em line rest idx co nl ig hhead] at heq
      cases pre with
      | nil =>
        rw [List.nil_append] at heq
        injection heq with h1 h2
        subst h1
        rcases hpc with hpe | ⟨d, hd, _⟩
        · have hv9 : 9 ≤ (make_comment (pyLstripWS line)).length :=
            FMT_PASS_len _ (by rw [pcMkValue] at hval; exact hval)
          have hmc := make_comment_length (pyLstripWS line) hhead
          have hls : (pyLstripWS line).length ≤ line.length :=
            (List.dropWhile_sublist _).length_le
          rw [pcMkNewlines, pcMkConsumed]
          omega
        · exact absurd hd (List.not_mem_nil d)
      | cons p0 pre' =>
        rw [List.cons_append] at heq
        injection heq with h1 h2
        rcases hpc with hpe | ⟨d, hd, hdc⟩
        · exact ih (idx + 1) (co + line.length + 1) 0 ig pc (by omega)
            pre' c suf h2 hval pc' (Or.inl hpe)
        · rcases List.mem_cons.mp hd with rfl | hd'
          · rw [← h1, pcMkConsumed] at hdc
            exact ih (idx + 1) (co + line.length + 1) 0 ig pc' (by omega)
              pre' c suf h2 hval pc' (Or.inl rfl)
          · exact ih (idx + 1) (co + line.length + 1) 0 ig pc (by omega)
              pre' c suf h2 hval pc' (Or.inr ⟨d, hd', hdc⟩)
    · rw [listCommentsA_cons_plain em line rest idx co nl ig hhead] at heq
      refine ih (idx + 1) (co + line.length + 1)
        (if pyLstripWS line = [] then nl + 1 else nl) _ pc ?_ pre c suf heq
        hval pc' hpc
      split <;> omega

/-- The bound a `MarkerAt` fact yields on the frozen leaf's prefix
ingredients: `previous_consumed + newlines + 8 ≤ len(leaf.prefix)`. -/
theorem markerAt_bound (P cval : List Char) (pc nl : Nat)
    (h : MarkerAt P cval pc nl) : pc + nl + 8 ≤ P.length := by
  obtain ⟨pre, c, suf, heq, hcv, hcf, hnl, hpc⟩ := h
  rw [list_comments] at heq
  split at heq
  · exact absurd heq.symm (by simp)
  · have hvp : c.value ∈ FMT_PASS := by rw [hcv]; exact hcf
    have hb := listCommentsA_marker_bound false (splitCRLF P) 0 0 0 0 0
      (by omega) pre c suf heq hvp pc hpc
    have hmem : c ∈ listCommentsA false (splitCRLF P) 0 0 0 0 := by
      rw [heq]
      exact List.mem_append_right _ (List.mem_cons_self _ _)
    have hA := listCommentsA_consumed false (splitCRLF P) 0 0 0 0 c hmem
    have hS := splitCRLF_consumed P
    omega

/-- The leaf prefixes of a concatenated forest. -/
theorem listPfxs_append : ∀ a b : List PTree,
    listPfxs (a ++ b) = listPfxs a ++ listPfxs b := by
  intro a b
  induction a with
  | nil => simp [listPfxs]
  | cons c r ih =>
    simp only [List.cons_append, listPfxs, List.append_eq, ih, List.append_assoc]

/-- The measure of a concatenated forest. -/
theorem listMu_append (a b : List PTree) :
    listMu (a ++ b) = listMu a + listMu b := by
  rw [listMu, listMu, listMu, listPfxs_append, List.map_append, List.sum_append]

/-- The measure of a composite node is the measure of its children. -/
theorem treeMu_node (ty : Nat) (cs : List PTree) :
    treeMu (.pnode ty cs) = listMu cs := by
  rw [treeMu, listMu, treePfxs]

/-- The measure of a nonempty forest. -/
theorem listMu_cons (c : PTree) (r : List PTree) :
    listMu (c :: r) = treeMu c + listMu r := by
  rw [listMu, listMu, treeMu, listPfxs, List.map_append, List.sum_append]

/-- The measure of a leaf. -/
theorem treeMu_leaf (ty : Nat) (v p : List Char) :
    treeMu (.pleaf ty v p) = 2 ^ p.length := by
  simp [treeMu, treePfxs, leafWeight]

/-- A leaf inside a forest contributes its weight to the measure. -/
theorem listMu_mem (p : List Char) (l : List PTree) (hp : p ∈ listPfxs l) :
    2 ^ p.length ≤ listMu l := by
  rw [listMu]
  exact List.single_le_sum (fun x _ => Nat.zero_le x) _
    (List.mem_map_of_mem leafWeight hp)

/-- Two powers of two both at least eight steps below `2 ^ L` sum to less
than `2 ^ L`. -/
theorem two_pow_sum_lt (a b L : Nat) (ha : a + 8 ≤ L) (hb : b + 8 ≤ L) :
    2 ^ a + 2 ^ b < 2 ^ L := by
  have h1 : 2 ^ a ≤ 2 ^ (L - 8) := Nat.pow_le_pow_right (by omega) (by omega)
  have h2 : 2 ^ b ≤ 2 ^ (L - 8) := Nat.pow_le_pow_right (by omega) (by omega)
  have h3 : 2 ^ (L - 8) + 2 ^ (L - 8) = 2 ^ (L - 7) := by
    have h4 : L - 8 + 1 = L - 7 := by omega
    rw [← h4, Nat.pow_succ]
    omega
  have h5 : 2 ^ (L - 7) < 2 ^ L := Nat.pow_lt_pow_right (by omega) (by omega)
  omega

/-- Every conversion step strictly decreases the measure. -/
theorem convertStep_mu_lt : ∀ t t' : PTree, ConvertStep t t' → treeMu t' < treeMu t := by
  intro t t' h
  induction h with
  | span ty pre mid post hidden markerPfx cval firstPfx pc nl hmid hmem hmark =>
    have hb := markerAt_bound _ _ _ _ hmark
    have hq : (firstPfx.take pc ++ List.replicate nl nlC).length + 8 ≤
        markerPfx.length := by
      rw [List.length_append, List.length_take, List.length_replicate]
      omega
    have hmu := listMu_mem _ _ hmem
    have hlt := two_pow_sum_lt (firstPfx.take pc ++ List.replicate nl nlC).length
      0 markerPfx.length hq (by omega)
    simp only [treeMu_node, listMu_append, listMu_cons, treeMu_leaf]
    omega
  | skipSibling ty tyL pre mid post hidden v P cval firstPfx pc nl hmid hskip
      hmark hcont =>
    have hb := markerAt_bound _ _ _ _ hmark
    have hcv := FMT_SKIP_len _ hskip
    have hrep := pyReplace_shrink cval P hcv.2 hcont
    have hq : (firstPfx.take pc ++ List.replicate nl nlC).length + 8 ≤
        P.length := by
      rw [List.length_append, List.length_take, List.length_replicate]
      omega
    have hlt := two_pow_sum_lt (firstPfx.take pc ++ List.replicate nl nlC).length
      (pyReplace cval [] P).length P.length hq (by omega)
    simp only [treeMu_node, listMu_append, listMu_cons, treeMu_leaf]
    omega
  | inChild ty pre post c c' hstep ih =>
    simp only [treeMu_node, listMu_append, listMu_cons]
    omega

/-- C6: `normalize_fmt_off` terminates on every finite parse tree: every
successful conversion performed by `convert_one_fmt_off_pair` strictly
decreases the measure `treeMu` (the sum over the leaves of
`2 ^ (prefix length)`), so the conversion relation is well-founded and the
convert-until-no-change loop reaches, after finitely many iterations, a
call in which no conversion is performed. -/
theorem normalize_fmt_off_terminates :
    (∀ t t' : PTree, ConvertStep t t' → treeMu t' < treeMu t) ∧
    WellFounded (fun t' t : PTree => ConvertStep t t') := by
  refine ⟨convertStep_mu_lt, ?_⟩
  exact Subrelation.wf (fun {x y} hq => convertStep_mu_lt y x hq)
    (InvImage.wf treeMu Nat.lt_wfRel.wf)

/-- Witness for C6 at a concrete conversion: freezing the single leaf
that carries `# fmt: off` in its prefix strictly decreases the measure. -/
theorem normalize_fmt_off_terminates_w :
    treeMu (PTree.pnode 0 [PTree.pleaf STANDALONE_COMMENT [] []]) <
    treeMu (PTree.pnode 0 [PTree.pleaf 1 ['x'] "# fmt: off".toList]) :=
  normalize_fmt_off_terminates.1 _ _
    (ConvertStep.span 0 [] [PTree.pleaf 1 ['x'] "# fmt: off".toList] [] []
      "# fmt: off".toList "# fmt: off".toList [] 0 0
      (List.cons_ne_nil _ _)
      (by simp [listPfxs, treePfxs])
      ⟨[], ⟨token_COMMENT, "# fmt: off".toList, 0, 11⟩, [], by decide, rfl,
        by decide, rfl, Or.inl rfl⟩)

end Black
